import Mathlib

/-!
Verification of the cilk_algorithms library.

This file gives a shallow embedding in Lean of the algorithms of the
repository (src/cilk_stable_sort.h, src/cilk_partition.h, src/cilk_algorithm.h)
and proves the specification claims about them.

Embedding conventions:
- random-access ranges are Lean lists; an iterator into a range is a natural
  number offset; difference_type values that are provably nonnegative are Nat;
- the parallel constructs (cilk_spawn, cilk_sync, cilk_for) are embedded by
  their serial elision, which is the canonical sequential semantics of a Cilk
  program: a spawned call runs to completion before its continuation.  All
  sibling tasks in this library write disjoint state; the single shared atomic
  of find2 is threaded explicitly as state in program order;
- calls into the C++ standard library (std::stable_sort, std::partition,
  std::find, std::lower_bound, std::upper_bound) are external collaborators
  and are modelled by their documented contracts.
-/

namespace cilkstl

/-- Design constant from src/cilk_stable_sort.h line 16. -/
def CILKSTL_PARALLEL_CUTOFF : Nat := 4000

/-- Design constant from src/cilk_stable_sort.h line 17. -/
def CILKSTL_PARALLEL_MERGE_CUTOFF : Nat := 1000

/-- A Bool-valued comparator is a strict weak order: irreflexive, transitive,
and when a is below b then any c is either above a or below b (equivalently,
incomparability is transitive).  This is the requirement std::stable_sort
places on its comparison object. -/
def IsSWO {α : Type} (comp : α → α → Bool) : Prop :=
  (∀ a, comp a a = false) ∧
  (∀ a b c, comp a b = true → comp b c = true → comp a c = true) ∧
  (∀ a b c, comp a b = true → comp a c = true ∨ comp c b = true)

theorem IsSWO.irrefl {α : Type} {comp : α → α → Bool} (h : IsSWO comp) (a : α) :
    comp a a = false := h.1 a

theorem IsSWO.trans {α : Type} {comp : α → α → Bool} (h : IsSWO comp) {a b c : α}
    (hab : comp a b = true) (hbc : comp b c = true) : comp a c = true :=
  h.2.1 a b c hab hbc

theorem IsSWO.weak {α : Type} {comp : α → α → Bool} (h : IsSWO comp) {a b : α} (c : α)
    (hab : comp a b = true) : comp a c = true ∨ comp c b = true :=
  h.2.2 a b c hab

theorem IsSWO.asymm {α : Type} {comp : α → α → Bool} (h : IsSWO comp) {a b : α}
    (hab : comp a b = true) : comp b a = false := by
  by_contra hba
  rw [Bool.not_eq_false] at hba
  have hbb := h.trans hba hab
  rw [h.irrefl b] at hbb
  exact Bool.false_ne_true hbb

theorem IsSWO.nlt_trans {α : Type} {comp : α → α → Bool} (h : IsSWO comp) {a b c : α}
    (hab : comp a b = false) (hbc : comp b c = false) : comp a c = false := by
  by_contra hac
  rw [Bool.not_eq_false] at hac
  rcases h.weak b hac with h1 | h1
  · rw [hab] at h1; exact Bool.false_ne_true h1
  · rw [hbc] at h1; exact Bool.false_ne_true h1

/-- A list is sorted for comparator comp when no element is strictly below an
earlier one. -/
def SortedC {α : Type} (comp : α → α → Bool) (l : List α) : Prop :=
  List.Pairwise (fun x y => comp y x = false) l

/-- Equivalence induced by a strict weak order: neither element is below the
other. -/
def equivb {α : Type} (comp : α → α → Bool) (k x : α) : Bool :=
  !comp k x && !comp x k

theorem equivb_refl {α : Type} {comp : α → α → Bool} (h : IsSWO comp) (a : α) :
    equivb comp a a = true := by
  simp [equivb, h.irrefl a]

theorem equivb_iff {α : Type} {comp : α → α → Bool} {k x : α} :
    equivb comp k x = true ↔ comp k x = false ∧ comp x k = false := by
  simp [equivb]

theorem equivb_symm {α : Type} {comp : α → α → Bool} {k x : α}
    (h : equivb comp k x = true) : equivb comp x k = true := by
  rw [equivb_iff] at h ⊢
  exact ⟨h.2, h.1⟩

theorem equivb_trans {α : Type} {comp : α → α → Bool} (h : IsSWO comp) {a b c : α}
    (h1 : equivb comp a b = true) (h2 : equivb comp b c = true) :
    equivb comp a c = true := by
  rw [equivb_iff] at h1 h2 ⊢
  exact ⟨h.nlt_trans h1.1 h2.1, h.nlt_trans h2.2 h1.2⟩

/-- Insertion of an element into a list, skipping the elements strictly below
it.  Building block of the canonical stable sort used to model
std::stable_sort by its contract. -/
def insertC {α : Type} (comp : α → α → Bool) (a : α) : List α → List α
  | [] => [a]
  | b :: l => if comp b a then b :: insertC comp a l else a :: b :: l

/-- The canonical single-threaded stable sort (insertion sort), our contract
model for std::stable_sort: it is proved sorted and stable below. -/
def std_stable_sort {α : Type} (comp : α → α → Bool) (l : List α) : List α :=
  l.foldr (insertC comp) []

theorem std_stable_sort_cons {α : Type} (comp : α → α → Bool) (a : α)
    (l : List α) :
    std_stable_sort comp (a :: l) = insertC comp a (std_stable_sort comp l) :=
  rfl

theorem mem_insertC {α : Type} {comp : α → α → Bool} {a x : α} {l : List α} :
    x ∈ insertC comp a l ↔ x = a ∨ x ∈ l := by
  induction l with
  | nil => simp [insertC]
  | cons b l ih =>
    rw [insertC]
    split
    · simp only [List.mem_cons, ih]
      tauto
    · simp only [List.mem_cons]

theorem sortedC_insertC {α : Type} {comp : α → α → Bool} (h : IsSWO comp) {a : α}
    {l : List α} (hl : SortedC comp l) : SortedC comp (insertC comp a l) := by
  induction l with
  | nil => simp [insertC, SortedC]
  | cons b l ih =>
    simp only [SortedC, List.pairwise_cons] at hl
    by_cases hb : comp b a = true
    · rw [insertC, if_pos hb]
      simp only [SortedC, List.pairwise_cons]
      constructor
      · intro x hx
        rcases mem_insertC.mp hx with hxa | hxl
        · subst hxa; exact h.asymm hb
        · exact hl.1 x hxl
      · exact ih hl.2
    · rw [insertC, if_neg hb]
      rw [Bool.not_eq_true] at hb
      simp only [SortedC, List.pairwise_cons]
      refine ⟨?_, ?_, ?_⟩
      · intro x hx
        rcases List.mem_cons.mp hx with hxb | hxl
        · subst hxb; exact hb
        · exact h.nlt_trans (hl.1 x hxl) hb
      · exact hl.1
      · exact hl.2

theorem filter_insertC {α : Type} {comp : α → α → Bool} (h : IsSWO comp) (k a : α)
    (l : List α) :
    (insertC comp a l).filter (equivb comp k) =
      if equivb comp k a then a :: l.filter (equivb comp k)
      else l.filter (equivb comp k) := by
  induction l with
  | nil => cases hka : equivb comp k a <;> simp [insertC, List.filter_cons, hka]
  | cons b l ih =>
    by_cases hb : comp b a = true
    · rw [insertC, if_pos hb]
      by_cases hka : equivb comp k a = true
      · have hkb : equivb comp k b = false := by
          rw [equivb_iff] at hka
          by_contra hkb
          rw [Bool.not_eq_false, equivb_iff] at hkb
          rcases h.weak k hb with h1 | h1
          · rw [hkb.2] at h1; exact Bool.false_ne_true h1
          · rw [hka.1] at h1; exact Bool.false_ne_true h1
        simp only [List.filter_cons, hkb, ih, hka, if_true, Bool.false_eq_true,
          if_false]
      · rw [Bool.not_eq_true] at hka
        simp only [List.filter_cons, ih, hka, Bool.false_eq_true, if_false]
    · rw [insertC, if_neg hb]
      cases hka : equivb comp k a <;> simp [List.filter_cons, hka]

theorem sortedC_std_stable_sort {α : Type} {comp : α → α → Bool} (h : IsSWO comp)
    (l : List α) : SortedC comp (std_stable_sort comp l) := by
  induction l with
  | nil => simp [std_stable_sort, SortedC]
  | cons a l ih => exact sortedC_insertC h ih

theorem filter_std_stable_sort {α : Type} {comp : α → α → Bool} (h : IsSWO comp)
    (k : α) (l : List α) :
    (std_stable_sort comp l).filter (equivb comp k) = l.filter (equivb comp k) := by
  induction l with
  | nil => rfl
  | cons a l ih =>
    have : std_stable_sort comp (a :: l) = insertC comp a (std_stable_sort comp l) := rfl
    rw [this, filter_insertC h, ih]
    by_cases hka : equivb comp k a = true
    · simp [List.filter_cons, hka]
    · rw [Bool.not_eq_true] at hka
      simp [List.filter_cons, hka]

/-- Characterization of a stable sort: the output is sorted and, for every key,
the subsequence of elements equivalent to that key is exactly the corresponding
subsequence of the input (this expresses both the permutation property and
stability). -/
def IsStableSortOf {α : Type} (comp : α → α → Bool) (out l : List α) : Prop :=
  SortedC comp out ∧ ∀ k, out.filter (equivb comp k) = l.filter (equivb comp k)

theorem isStableSortOf_std_stable_sort {α : Type} {comp : α → α → Bool}
    (h : IsSWO comp) (l : List α) : IsStableSortOf comp (std_stable_sort comp l) l :=
  ⟨sortedC_std_stable_sort h l, fun k => filter_std_stable_sort h k l⟩

theorem filter_equivb_ne_nil {α : Type} {comp : α → α → Bool} (h : IsSWO comp)
    {x : α} {l : List α} (hx : x ∈ l) : l.filter (equivb comp x) ≠ [] := by
  intro hnil
  rw [List.filter_eq_nil_iff] at hnil
  exact hnil x hx (equivb_refl h x)

theorem stable_sort_unique_aux {α : Type} {comp : α → α → Bool} (h : IsSWO comp) :
    ∀ u v : List α, SortedC comp u → SortedC comp v →
      (∀ k, u.filter (equivb comp k) = v.filter (equivb comp k)) → u = v := by
  intro u
  induction u with
  | nil =>
    intro v _ _ hf
    cases v with
    | nil => rfl
    | cons y v =>
      have := hf y
      rw [List.filter_nil, List.filter_cons, equivb_refl h y] at this
      simp at this
  | cons x u ihu =>
    intro v hu hv hf
    cases v with
    | nil =>
      have := hf x
      rw [List.filter_nil, List.filter_cons, equivb_refl h x] at this
      simp at this
    | cons y v =>
      simp only [SortedC, List.pairwise_cons] at hu hv
      have hxy : equivb comp x y = true := by
        rw [equivb_iff]
        constructor
        · by_contra h1
          rw [Bool.not_eq_false] at h1
          have hnem : (y :: v).filter (equivb comp x) ≠ [] := by
            rw [← hf x]
            exact filter_equivb_ne_nil h (List.mem_cons_self x u)
          rw [Ne, List.filter_eq_nil_iff] at hnem
          push_neg at hnem
          rcases hnem with ⟨z, hz, hez⟩
          rw [equivb_iff] at hez
          have hzy : comp z y = true := by
            rcases h.weak z h1 with h2 | h2
            · rw [hez.1] at h2; exact absurd h2 Bool.false_ne_true
            · exact h2
          rcases List.mem_cons.mp hz with hzy2 | hzv
          · subst hzy2; rw [h.irrefl z] at hzy; exact Bool.false_ne_true hzy
          · rw [hv.1 z hzv] at hzy; exact Bool.false_ne_true hzy
        · by_contra h1
          rw [Bool.not_eq_false] at h1
          have hnem : (x :: u).filter (equivb comp y) ≠ [] := by
            rw [hf y]
            exact filter_equivb_ne_nil h (List.mem_cons_self y v)
          rw [Ne, List.filter_eq_nil_iff] at hnem
          push_neg at hnem
          rcases hnem with ⟨z, hz, hez⟩
          rw [equivb_iff] at hez
          have hzx : comp z x = true := by
            rcases h.weak z h1 with h2 | h2
            · rw [hez.1] at h2; exact absurd h2 Bool.false_ne_true
            · exact h2
          rcases List.mem_cons.mp hz with hzx2 | hzu
          · subst hzx2; rw [h.irrefl z] at hzx; exact Bool.false_ne_true hzx
          · rw [hu.1 z hzu] at hzx; exact Bool.false_ne_true hzx
      have hx := hf x
      rw [List.filter_cons, List.filter_cons, equivb_refl h x, if_pos rfl,
        if_pos hxy] at hx
      injection hx with hhead htail
      subst hhead
      have htails : ∀ k, u.filter (equivb comp k) = v.filter (equivb comp k) := by
        intro k
        have hk := hf k
        rw [List.filter_cons, List.filter_cons] at hk
        by_cases hkx : equivb comp k x = true
        · rw [if_pos hkx, if_pos hkx] at hk
          injection hk
        · rw [Bool.not_eq_true] at hkx
          rw [hkx] at hk
          simpa using hk
      rw [ihu v hu.2 hv.2 htails]

/-- Two stable sorts of the same list agree. -/
theorem stable_sort_unique {α : Type} {comp : α → α → Bool} (h : IsSWO comp)
    {u v l : List α} (hu : IsStableSortOf comp u l) (hv : IsStableSortOf comp v l) :
    u = v :=
  stable_sort_unique_aux h u v hu.1 hv.1
    (fun k => (hu.2 k).trans (hv.2 k).symm)

/-- Model of serial_merge (src/cilk_stable_sort.h lines 47-60): two-pointer
merge of the ranges held in the two input lists into the output region; the
element from the b side is taken only when comp(*bs, *as) holds. -/
def serial_merge {α : Type} (comp : α → α → Bool) : List α → List α → List α
  | [], b => b
  | a, [] => a
  | x :: a, y :: b =>
    if comp y x then y :: serial_merge comp (x :: a) b
    else x :: serial_merge comp a (y :: b)

theorem serial_merge_nil_right {α : Type} (comp : α → α → Bool) (a : List α) :
    serial_merge comp a [] = a := by
  cases a <;> simp [serial_merge]

theorem serial_merge_nil_left {α : Type} (comp : α → α → Bool) (b : List α) :
    serial_merge comp [] b = b := by
  cases b <;> simp [serial_merge]

theorem mem_serial_merge {α : Type} {comp : α → α → Bool} {z : α} :
    ∀ {a b : List α}, z ∈ serial_merge comp a b ↔ z ∈ a ∨ z ∈ b := by
  intro a
  induction a with
  | nil => intro b; simp [serial_merge]
  | cons x a iha =>
    intro b
    induction b with
    | nil => simp [serial_merge_nil_right]
    | cons y b ihb =>
      rw [serial_merge]
      split
      · simp only [List.mem_cons, ihb]
        tauto
      · simp only [List.mem_cons, iha (b := y :: b), List.mem_cons]
        tauto

theorem sortedC_serial_merge {α : Type} {comp : α → α → Bool} (h : IsSWO comp) :
    ∀ {a b : List α}, SortedC comp a → SortedC comp b →
      SortedC comp (serial_merge comp a b) := by
  intro a
  induction a with
  | nil => intro b _ hb; simpa [serial_merge] using hb
  | cons x a iha =>
    intro b
    induction b with
    | nil => intro ha _; simpa [serial_merge_nil_right] using ha
    | cons y b ihb =>
      intro ha hb
      simp only [SortedC, List.pairwise_cons] at ha hb
      rw [serial_merge]
      split
      · next hyx =>
        simp only [SortedC, List.pairwise_cons]
        constructor
        · intro z hz
          rcases mem_serial_merge.mp hz with hza | hzb
          · rcases List.mem_cons.mp hza with hzx | hza2
            · subst hzx; exact h.asymm hyx
            · have hzx := ha.1 z hza2
              by_contra h0
              rw [Bool.not_eq_false] at h0
              rcases h.weak x h0 with h1 | h1
              · rw [hzx] at h1; exact Bool.false_ne_true h1
              · rw [h.asymm hyx] at h1; exact Bool.false_ne_true h1
          · exact hb.1 z hzb
        · exact ihb (by simp only [SortedC, List.pairwise_cons]; exact ha) hb.2
      · next hyx =>
        rw [Bool.not_eq_true] at hyx
        simp only [SortedC, List.pairwise_cons]
        constructor
        · intro z hz
          rcases mem_serial_merge.mp hz with hza | hzb
          · exact ha.1 z hza
          · rcases List.mem_cons.mp hzb with hzy | hzb2
            · subst hzy; exact hyx
            · exact h.nlt_trans (hb.1 z hzb2) hyx
        · exact iha ha.2 (by simp only [SortedC, List.pairwise_cons]; exact hb)

theorem filter_serial_merge {α : Type} {comp : α → α → Bool} (h : IsSWO comp)
    (k : α) :
    ∀ {a b : List α}, SortedC comp a → SortedC comp b →
      (serial_merge comp a b).filter (equivb comp k) =
        a.filter (equivb comp k) ++ b.filter (equivb comp k) := by
  intro a
  induction a with
  | nil => intro b _ _; simp [serial_merge]
  | cons x a iha =>
    intro b
    induction b with
    | nil => intro _ _; simp [serial_merge_nil_right]
    | cons y b ihb =>
      intro ha hb
      simp only [SortedC, List.pairwise_cons] at ha hb
      rw [serial_merge]
      split
      · next hyx =>
        have ihb2 := ihb (by simp only [SortedC, List.pairwise_cons]; exact ha) hb.2
        by_cases hky : equivb comp k y = true
        · have hfa : (x :: a).filter (equivb comp k) = [] := by
            rw [List.filter_eq_nil_iff]
            intro z hz hkz
            have hzy : equivb comp z y = true :=
              equivb_trans h (equivb_symm hkz) hky
            rw [equivb_iff] at hzy
            rcases List.mem_cons.mp hz with hzx | hza
            · subst hzx; rw [hzy.2] at hyx; exact Bool.false_ne_true hyx
            · have h1 : comp z x = true := by
                rcases h.weak z hyx with h2 | h2
                · rw [hzy.2] at h2; exact absurd h2 Bool.false_ne_true
                · exact h2
              rw [ha.1 z hza] at h1; exact Bool.false_ne_true h1
          simp [List.filter_cons, hky, ihb2, hfa]
        · rw [Bool.not_eq_true] at hky
          simp [List.filter_cons, hky, ihb2]
      · next hyx =>
        have iha2 := iha (b := y :: b) ha.2
          (by simp only [SortedC, List.pairwise_cons]; exact hb)
        by_cases hkx : equivb comp k x = true
        · simp [List.filter_cons, hkx, iha2]
        · rw [Bool.not_eq_true] at hkx
          simp [List.filter_cons, hkx, iha2]

theorem isStableSortOf_serial_merge {α : Type} {comp : α → α → Bool}
    (h : IsSWO comp) {a b la lb : List α} (hsa : IsStableSortOf comp a la)
    (hsb : IsStableSortOf comp b lb) :
    IsStableSortOf comp (serial_merge comp a b) (la ++ lb) := by
  refine ⟨sortedC_serial_merge h hsa.1 hsb.1, fun k => ?_⟩
  rw [filter_serial_merge h k hsa.1 hsb.1, List.filter_append, hsa.2 k, hsb.2 k]

theorem serial_merge_append {α : Type} {comp : α → α → Bool} :
    ∀ (a1 : List α) (b1 : List α) (a2 b2 : List α),
      (∀ x ∈ a2, ∀ y ∈ b1, comp y x = true) →
      (∀ x ∈ a1, ∀ y ∈ b2, comp y x = false) →
      serial_merge comp (a1 ++ a2) (b1 ++ b2) =
        serial_merge comp a1 b1 ++ serial_merge comp a2 b2 := by
  intro a1
  induction a1 with
  | nil =>
    intro b1
    induction b1 with
    | nil => intro a2 b2 _ _; simp [serial_merge_nil_left]
    | cons y b1 ihb =>
      intro a2 b2 h1 h2
      cases a2 with
      | nil =>
        simp only [List.nil_append, serial_merge_nil_left]
      | cons x a2 =>
        have hyx : comp y x = true :=
          h1 x (List.mem_cons_self x a2) y (List.mem_cons_self y b1)
        have ih := ihb (x :: a2) b2
          (fun u hu v hv => h1 u hu v (List.mem_cons_of_mem y hv))
          (fun u hu v _ => absurd hu (List.not_mem_nil u))
        rw [List.nil_append, serial_merge_nil_left] at ih
        simp only [List.nil_append, List.cons_append, serial_merge_nil_left]
        rw [serial_merge, if_pos hyx, ih]
  | cons x a1 iha =>
    intro b1
    induction b1 with
    | nil =>
      intro a2 b2 h1 h2
      cases b2 with
      | nil =>
        simp only [List.append_nil, serial_merge_nil_right]
      | cons y b2 =>
        have hyx : comp y x = false :=
          h2 x (List.mem_cons_self x a1) y (List.mem_cons_self y b2)
        have ih := iha [] a2 (y :: b2)
          (fun u hu v hv => absurd hv (List.not_mem_nil v))
          (fun u hu v hv => h2 u (List.mem_cons_of_mem x hu) v hv)
        rw [List.nil_append, serial_merge_nil_right] at ih
        simp only [List.cons_append, List.nil_append, serial_merge_nil_right]
        rw [serial_merge, if_neg (by rw [hyx]; exact Bool.false_ne_true), ih]
    | cons y b1 ihb =>
      intro a2 b2 h1 h2
      simp only [List.cons_append]
      by_cases hyx : comp y x = true
      · have ih := ihb a2 b2
          (fun u hu v hv => h1 u hu v (List.mem_cons_of_mem y hv)) h2
        simp only [List.cons_append] at ih
        rw [serial_merge, if_pos hyx, ih, serial_merge, if_pos hyx,
          List.cons_append]
      · have ih := iha (y :: b1) a2 b2 h1
          (fun u hu v hv => h2 u (List.mem_cons_of_mem x hu) v hv)
        simp only [List.cons_append] at ih
        rw [serial_merge, if_neg hyx, ih, serial_merge, if_neg hyx,
          List.cons_append]

theorem take_findIdx_not {α : Type} (q : α → Bool) :
    ∀ l : List α, ∀ y ∈ l.take (l.findIdx q), q y = false := by
  intro l
  induction l with
  | nil => intro y hy; simp at hy
  | cons b l ih =>
    intro y hy
    by_cases hb : q b = true
    · rw [List.findIdx_cons, hb, cond_true, List.take_zero] at hy
      simp at hy
    · rw [Bool.not_eq_true] at hb
      rw [List.findIdx_cons, hb, cond_false, List.take_succ_cons] at hy
      rcases List.mem_cons.mp hy with hyb | hyl
      · subst hyb; exact hb
      · exact ih y hyl

/-- Elements at or past the position std::lower_bound finds in a sorted list
are not below the pivot. -/
theorem sorted_drop_lower_bound {α : Type} {comp : α → α → Bool} (h : IsSWO comp)
    (p : α) : ∀ l : List α, SortedC comp l →
      ∀ y ∈ l.drop (l.findIdx fun e => !comp e p), comp y p = false := by
  intro l
  induction l with
  | nil => intro _ y hy; simp at hy
  | cons b l ih =>
    intro hl y hy
    simp only [SortedC, List.pairwise_cons] at hl
    by_cases hb : comp b p = true
    · rw [List.findIdx_cons] at hy
      rw [show (!comp b p) = false by rw [hb]; rfl, cond_false,
        List.drop_succ_cons] at hy
      exact ih hl.2 y hy
    · rw [Bool.not_eq_true] at hb
      rw [List.findIdx_cons] at hy
      rw [show (!comp b p) = true by rw [hb]; rfl, cond_true, List.drop_zero] at hy
      rcases List.mem_cons.mp hy with hyb | hyl
      · subst hyb; exact hb
      · exact h.nlt_trans (hl.1 y hyl) hb

/-- Elements at or past the position std::upper_bound finds in a sorted list
are above the pivot. -/
theorem sorted_drop_upper_bound {α : Type} {comp : α → α → Bool} (h : IsSWO comp)
    (p : α) : ∀ l : List α, SortedC comp l →
      ∀ y ∈ l.drop (l.findIdx fun e => comp p e), comp p y = true := by
  intro l
  induction l with
  | nil => intro _ y hy; simp at hy
  | cons b l ih =>
    intro hl y hy
    simp only [SortedC, List.pairwise_cons] at hl
    by_cases hb : comp p b = true
    · rw [List.findIdx_cons, hb, cond_true, List.drop_zero] at hy
      rcases List.mem_cons.mp hy with hyb | hyl
      · subst hyb; exact hb
      · rcases h.weak y hb with h1 | h1
        · exact h1
        · rw [hl.1 y hyl] at h1; exact absurd h1 Bool.false_ne_true
    · rw [Bool.not_eq_true] at hb
      rw [List.findIdx_cons, hb, cond_false, List.drop_succ_cons] at hy
      exact ih hl.2 y hy

/-- Model of parallel_merge (src/cilk_stable_sort.h lines 79-119).  The output
region is represented as the produced list: the two recursive sub-merges write
disjoint consecutive slices of it, so the serial elision is their
concatenation.  std::lower_bound and std::upper_bound are modelled by their
contract on a partitioned range, the first position at which the predicate on
the searched value fails respectively holds.  The pivot reads *(as + a_delta)
and *(bs + b_delta) are in range whenever the enclosing branch is taken; the
dite fallbacks for the out-of-range case are never reached. -/
def parallel_merge {α : Type} (comp : α → α → Bool) (a b : List α) : List α :=
  if a.length + b.length < CILKSTL_PARALLEL_MERGE_CUTOFF then
    serial_merge comp a b
  else if b.length < a.length then
    if hp : a.length - a.length / 2 < a.length then
      parallel_merge comp (a.take (a.length - a.length / 2))
        (b.take (b.findIdx fun e =>
          !comp e (a.get ⟨a.length - a.length / 2, hp⟩))) ++
      parallel_merge comp (a.drop (a.length - a.length / 2))
        (b.drop (b.findIdx fun e =>
          !comp e (a.get ⟨a.length - a.length / 2, hp⟩)))
    else serial_merge comp a b
  else
    if hq : b.length / 2 < b.length then
      parallel_merge comp
        (a.take (a.findIdx fun e => comp (b.get ⟨b.length / 2, hq⟩) e))
        (b.take (b.length / 2)) ++
      parallel_merge comp
        (a.drop (a.findIdx fun e => comp (b.get ⟨b.length / 2, hq⟩) e))
        (b.drop (b.length / 2))
    else serial_merge comp a b
termination_by a.length + b.length
decreasing_by
  · simp only [List.length_take, List.length_drop,
      CILKSTL_PARALLEL_MERGE_CUTOFF] at *
    omega
  · simp only [List.length_take, List.length_drop,
      CILKSTL_PARALLEL_MERGE_CUTOFF] at *
    omega
  · have had : a.findIdx (fun e => comp (b.get ⟨b.length / 2, hq⟩) e) ≤ a.length :=
      List.findIdx_le_length _
    simp only [List.length_take, List.length_drop,
      CILKSTL_PARALLEL_MERGE_CUTOFF] at *
    omega
  · simp only [List.length_take, List.length_drop,
      CILKSTL_PARALLEL_MERGE_CUTOFF] at *
    omega

theorem sortedC_take {α : Type} {comp : α → α → Bool} {l : List α} (n : Nat)
    (hl : SortedC comp l) : SortedC comp (l.take n) :=
  List.Pairwise.sublist (List.take_sublist n l) hl

theorem sortedC_drop {α : Type} {comp : α → α → Bool} {l : List α} (n : Nat)
    (hl : SortedC comp l) : SortedC comp (l.drop n) :=
  List.Pairwise.sublist (List.drop_sublist n l) hl

theorem sortedC_cross {α : Type} {comp : α → α → Bool} {l : List α} (n : Nat)
    (hl : SortedC comp l) :
    ∀ x ∈ l.take n, ∀ z ∈ l.drop n, comp z x = false := by
  have h2 := hl
  rw [show l = l.take n ++ l.drop n from (List.take_append_drop n l).symm] at h2
  rw [SortedC, List.pairwise_append] at h2
  exact h2.2.2

theorem parallel_merge_eq_serial_aux {α : Type} {comp : α → α → Bool}
    (h : IsSWO comp) :
    ∀ n (a b : List α), a.length + b.length ≤ n → SortedC comp a →
      SortedC comp b → parallel_merge comp a b = serial_merge comp a b := by
  intro n
  induction n with
  | zero =>
    intro a b hab _ _
    rw [parallel_merge,
      if_pos (by simp only [CILKSTL_PARALLEL_MERGE_CUTOFF]; omega)]
  | succ m ih =>
    intro a b hab ha hb
    rw [parallel_merge]
    by_cases hcut : a.length + b.length < CILKSTL_PARALLEL_MERGE_CUTOFF
    · rw [if_pos hcut]
    · rw [if_neg hcut]
      rw [CILKSTL_PARALLEL_MERGE_CUTOFF] at hcut
      by_cases hba : b.length < a.length
      · rw [if_pos hba]
        have hp : a.length - a.length / 2 < a.length := by omega
        rw [dif_pos hp]
        set ad := a.length - a.length / 2 with had
        set p := a.get ⟨ad, hp⟩ with hpdef
        set bd := b.findIdx (fun e => !comp e p) with hbd
        have hdropa : a.drop ad = p :: a.drop (ad + 1) := by
          rw [List.drop_eq_getElem_cons hp, hpdef, List.get_eq_getElem]
        have h1 : ∀ x ∈ a.drop ad, comp x p = false := by
          intro x hx
          rw [hdropa] at hx
          rcases List.mem_cons.mp hx with hxp | hxr
          · rw [hxp]; exact h.irrefl p
          · have hs := sortedC_drop ad ha
            rw [hdropa] at hs
            simp only [SortedC, List.pairwise_cons] at hs
            exact hs.1 x hxr
        have h2 : ∀ y ∈ b.take bd, comp y p = true := by
          intro y hy
          have := take_findIdx_not (fun e => !comp e p) b y hy
          rw [Bool.not_eq_false'] at this
          exact this
        have h3 : ∀ y ∈ b.drop bd, comp y p = false :=
          sorted_drop_lower_bound h p b hb
        have c1 : ∀ x ∈ a.drop ad, ∀ y ∈ b.take bd, comp y x = true := by
          intro x hx y hy
          rcases h.weak x (h2 y hy) with h4 | h4
          · exact h4
          · rw [h1 x hx] at h4; exact absurd h4 Bool.false_ne_true
        have c2 : ∀ x ∈ a.take ad, ∀ y ∈ b.drop bd, comp y x = false := by
          intro x hx y hy
          have hpx : comp p x = false :=
            sortedC_cross ad ha x hx p (by rw [hdropa]; exact List.mem_cons_self _ _)
          exact h.nlt_trans (h3 y hy) hpx
        have hlt : bd ≤ b.length := List.findIdx_le_length _
        rw [ih (a.take ad) (b.take bd)
            (by simp only [List.length_take]; omega)
            (sortedC_take ad ha) (sortedC_take bd hb),
          ih (a.drop ad) (b.drop bd)
            (by simp only [List.length_drop]; omega)
            (sortedC_drop ad ha) (sortedC_drop bd hb),
          ← serial_merge_append (a.take ad) (b.take bd) (a.drop ad) (b.drop bd)
            c1 c2,
          List.take_append_drop, List.take_append_drop]
      · rw [if_neg hba]
        have hq : b.length / 2 < b.length := by omega
        rw [dif_pos hq]
        set bd := b.length / 2 with hbd
        set q := b.get ⟨bd, hq⟩ with hqdef
        set ad := a.findIdx (fun e => comp q e) with had
        have hdropb : b.drop bd = q :: b.drop (bd + 1) := by
          rw [List.drop_eq_getElem_cons hq, hqdef, List.get_eq_getElem]
        have h1 : ∀ x ∈ a.drop ad, comp q x = true :=
          sorted_drop_upper_bound h q a ha
        have h2 : ∀ x ∈ a.take ad, comp q x = false := by
          intro x hx
          exact take_findIdx_not (fun e => comp q e) a x hx
        have h3 : ∀ y ∈ b.take bd, comp q y = false := by
          intro y hy
          exact sortedC_cross bd hb y hy q
            (by rw [hdropb]; exact List.mem_cons_self _ _)
        have c1 : ∀ x ∈ a.drop ad, ∀ y ∈ b.take bd, comp y x = true := by
          intro x hx y hy
          rcases h.weak y (h1 x hx) with h4 | h4
          · rw [h3 y hy] at h4; exact absurd h4 Bool.false_ne_true
          · exact h4
        have c2 : ∀ x ∈ a.take ad, ∀ y ∈ b.drop bd, comp y x = false := by
          intro x hx y hy
          rw [hdropb] at hy
          rcases List.mem_cons.mp hy with hyq | hyr
          · subst hyq; exact h2 x hx
          · have hs := sortedC_drop bd hb
            rw [hdropb] at hs
            simp only [SortedC, List.pairwise_cons] at hs
            exact h.nlt_trans (hs.1 y hyr) (h2 x hx)
        have hlt : ad ≤ a.length := List.findIdx_le_length _
        rw [ih (a.take ad) (b.take bd)
            (by simp only [List.length_take]; omega)
            (sortedC_take ad ha) (sortedC_take bd hb),
          ih (a.drop ad) (b.drop bd)
            (by simp only [List.length_drop]; omega)
            (sortedC_drop ad ha) (sortedC_drop bd hb),
          ← serial_merge_append (a.take ad) (b.take bd) (a.drop ad) (b.drop bd)
            c1 c2,
          List.take_append_drop, List.take_append_drop]

theorem parallel_merge_eq_serial {α : Type} {comp : α → α → Bool} (h : IsSWO comp)
    {a b : List α} (ha : SortedC comp a) (hb : SortedC comp b) :
    parallel_merge comp a b = serial_merge comp a b :=
  parallel_merge_eq_serial_aux h (a.length + b.length) a b le_rfl ha hb

theorem isStableSortOf_parallel_merge {α : Type} {comp : α → α → Bool}
    (h : IsSWO comp) {a b la lb : List α} (hsa : IsStableSortOf comp a la)
    (hsb : IsStableSortOf comp b lb) :
    IsStableSortOf comp (parallel_merge comp a b) (la ++ lb) := by
  rw [parallel_merge_eq_serial h hsa.1 hsb.1]
  exact isStableSortOf_serial_merge h hsa hsb

theorem stableSort_eq_std {α : Type} {comp : α → α → Bool} (h : IsSWO comp)
    {u l : List α} (hu : IsStableSortOf comp u l) : u = std_stable_sort comp l :=
  stable_sort_unique h hu (isStableSortOf_std_stable_sort h l)

theorem parallel_merge_std_halves {α : Type} {comp : α → α → Bool}
    (h : IsSWO comp) (la lb : List α) :
    parallel_merge comp (std_stable_sort comp la) (std_stable_sort comp lb) =
      std_stable_sort comp (la ++ lb) :=
  stableSort_eq_std h (isStableSortOf_parallel_merge h
    (isStableSortOf_std_stable_sort h la) (isStableSortOf_std_stable_sort h lb))

/-- Model of merge_sort (src/cilk_stable_sort.h lines 127-170).  The contents
of the original range [first, last) and of its slice of the scratch buffer
[out, out + range_width) are the two list components of the result; the Bool
is the returned location flag (true: result in the scratch).  std::stable_sort
on the two halves of the base case is the contract model std_stable_sort;
parallel_merge produces the contents written to its disjoint target region;
move_contents copies the not-yet-moved half into the matching scratch slice.
The recursive calls act on the two halves of the range and the two matching
halves of the scratch. -/
def merge_sort {α : Type} (comp : α → α → Bool) (l out : List α) :
    Bool × List α × List α :=
  if l.length / 2 ≤ CILKSTL_PARALLEL_CUTOFF then
    (true,
     std_stable_sort comp (l.take (l.length / 2)) ++
       std_stable_sort comp (l.drop (l.length / 2)),
     parallel_merge comp (std_stable_sort comp (l.take (l.length / 2)))
       (std_stable_sort comp (l.drop (l.length / 2))))
  else
    match merge_sort comp (l.take (l.length / 2)) (out.take (l.length / 2)),
        merge_sort comp (l.drop (l.length / 2)) (out.drop (l.length / 2)) with
    | (true, _, o1), (true, _, o2) =>
      (false, parallel_merge comp o1 o2, o1 ++ o2)
    | (false, l1, _), (false, l2, _) =>
      (true, l1 ++ l2, parallel_merge comp l1 l2)
    | (true, _, o1), (false, l2, _) =>
      (false, parallel_merge comp o1 l2, o1 ++ l2)
    | (false, l1, _), (true, _, o2) =>
      (false, parallel_merge comp l1 o2, l1 ++ o2)
termination_by l.length
decreasing_by
  · simp only [List.length_take, CILKSTL_PARALLEL_CUTOFF] at *
    omega
  · simp only [List.length_drop, CILKSTL_PARALLEL_CUTOFF] at *
    omega

theorem merge_sort_correct_aux {α : Type} {comp : α → α → Bool} (h : IsSWO comp) :
    ∀ n (l out : List α), l.length ≤ n →
      ((merge_sort comp l out).1 = true →
        (merge_sort comp l out).2.2 = std_stable_sort comp l) ∧
      ((merge_sort comp l out).1 = false →
        (merge_sort comp l out).2.1 = std_stable_sort comp l) := by
  intro n
  induction n with
  | zero =>
    intro l out hl
    have hbase : l.length / 2 ≤ CILKSTL_PARALLEL_CUTOFF := by
      simp only [CILKSTL_PARALLEL_CUTOFF]; omega
    rw [merge_sort, if_pos hbase]
    refine ⟨fun _ => ?_, fun hfalse => by simp at hfalse⟩
    rw [parallel_merge_std_halves h, List.take_append_drop]
  | succ m ih =>
    intro l out hl
    by_cases hbase : l.length / 2 ≤ CILKSTL_PARALLEL_CUTOFF
    · rw [merge_sort, if_pos hbase]
      refine ⟨fun _ => ?_, fun hfalse => by simp at hfalse⟩
      rw [parallel_merge_std_halves h, List.take_append_drop]
    · rw [merge_sort, if_neg hbase]
      rw [CILKSTL_PARALLEL_CUTOFF] at hbase
      have ih1 := ih (l.take (l.length / 2)) (out.take (l.length / 2))
        (by simp only [List.length_take]; omega)
      have ih2 := ih (l.drop (l.length / 2)) (out.drop (l.length / 2))
        (by simp only [List.length_drop]; omega)
      rcases hrec1 : merge_sort comp (l.take (l.length / 2))
          (out.take (l.length / 2)) with ⟨r1, l1, o1⟩
      rcases hrec2 : merge_sort comp (l.drop (l.length / 2))
          (out.drop (l.length / 2)) with ⟨r2, l2, o2⟩
      rw [hrec1] at ih1
      rw [hrec2] at ih2
      simp only at ih1 ih2
      cases r1 <;> cases r2
      · refine ⟨fun _ => ?_, fun hf => by simp at hf⟩
        simp only
        rw [ih1.2 rfl, ih2.2 rfl, parallel_merge_std_halves h,
          List.take_append_drop]
      · refine ⟨fun ht => by simp at ht, fun _ => ?_⟩
        simp only
        rw [ih1.2 rfl, ih2.1 rfl, parallel_merge_std_halves h,
          List.take_append_drop]
      · refine ⟨fun ht => by simp at ht, fun _ => ?_⟩
        simp only
        rw [ih1.1 rfl, ih2.2 rfl, parallel_merge_std_halves h,
          List.take_append_drop]
      · refine ⟨fun ht => by simp at ht, fun _ => ?_⟩
        simp only
        rw [ih1.1 rfl, ih2.1 rfl, parallel_merge_std_halves h,
          List.take_append_drop]

theorem merge_sort_correct {α : Type} {comp : α → α → Bool} (h : IsSWO comp)
    (l out : List α) :
    ((merge_sort comp l out).1 = true →
      (merge_sort comp l out).2.2 = std_stable_sort comp l) ∧
    ((merge_sort comp l out).1 = false →
      (merge_sort comp l out).2.1 = std_stable_sort comp l) :=
  merge_sort_correct_aux h l.length l out le_rfl

/-- Model of stable_sort (src/cilk_stable_sort.h lines 176-194).  Below the
cutoff the serial std::stable_sort is called (contract model).  Otherwise a
scratch buffer of the same length is acquired and merge_sort is run; since
the buffer cells are uninitialized and merge_sort never exposes a scratch
cell it did not write (proved by merge_sort_correct for every scratch
argument), the same-length input list serves as the arbitrary initial scratch
contents.  When the flag says the result ended in the scratch, move_contents
copies it back into the original range. -/
def stable_sort {α : Type} (comp : α → α → Bool) (l : List α) : List α :=
  if l.length < CILKSTL_PARALLEL_CUTOFF then std_stable_sort comp l
  else if (merge_sort comp l l).1 then (merge_sort comp l l).2.2
  else (merge_sort comp l l).2.1

/-- C1: for every input sequence and every strict-weak-order comparator,
stable_sort terminates with the range holding exactly the output of the
canonical single-threaded stable sort; in particular the output is sorted and
elements that compare equal keep their original relative order (for every key,
the subsequence of elements equivalent to it is preserved). -/
theorem claim_C1_stable_sort_correct {α : Type} (comp : α → α → Bool)
    (h : IsSWO comp) (l : List α) :
    stable_sort comp l = std_stable_sort comp l ∧
    SortedC comp (stable_sort comp l) ∧
    ∀ k, (stable_sort comp l).filter (equivb comp k) = l.filter (equivb comp k) := by
  have heq : stable_sort comp l = std_stable_sort comp l := by
    rw [stable_sort]
    by_cases hsmall : l.length < CILKSTL_PARALLEL_CUTOFF
    · rw [if_pos hsmall]
    · rw [if_neg hsmall]
      rcases hflag : (merge_sort comp l l).1 with hf | hf
      · simp only [Bool.false_eq_true, if_false]
        exact (merge_sort_correct h l l).2 hflag
      · simp only [if_true]
        exact (merge_sort_correct h l l).1 hflag
  refine ⟨heq, ?_, ?_⟩
  · rw [heq]; exact sortedC_std_stable_sort h l
  · intro k; rw [heq]; exact filter_std_stable_sort h k l

/-- Witness for C1 at a concrete comparator and list. -/
theorem claim_C1_witness :
    IsSWO (fun a b : Fin 3 => decide (a < b)) ∧
    (stable_sort (fun a b : Fin 3 => decide (a < b)) [2, 0, 1, 0, 2] =
        std_stable_sort (fun a b : Fin 3 => decide (a < b)) [2, 0, 1, 0, 2] ∧
      SortedC (fun a b : Fin 3 => decide (a < b))
        (stable_sort (fun a b : Fin 3 => decide (a < b)) [2, 0, 1, 0, 2]) ∧
      ∀ k, (stable_sort (fun a b : Fin 3 => decide (a < b))
          [2, 0, 1, 0, 2]).filter (equivb (fun a b : Fin 3 => decide (a < b)) k) =
        List.filter (equivb (fun a b : Fin 3 => decide (a < b)) k)
          [2, 0, 1, 0, 2]) :=
  ⟨by unfold IsSWO; decide, claim_C1_stable_sort_correct (fun a b : Fin 3 => decide (a < b))
    (by unfold IsSWO; decide) [2, 0, 1, 0, 2]⟩

/-- C2: the location flag returned by merge_sort tells which buffer holds the
stably sorted permutation of the input range (false: the original range;
true: the scratch region), and above the cutoff the top level moves the
scratch back into the original range exactly when the flag is true, so the
final result always ends up in the original range. -/
theorem claim_C2_merge_sort_flag {α : Type} (comp : α → α → Bool)
    (h : IsSWO comp) (l out : List α) :
    ((merge_sort comp l out).1 = false →
      (merge_sort comp l out).2.1 = std_stable_sort comp l) ∧
    ((merge_sort comp l out).1 = true →
      (merge_sort comp l out).2.2 = std_stable_sort comp l) ∧
    (CILKSTL_PARALLEL_CUTOFF ≤ l.length →
      stable_sort comp l =
        (if (merge_sort comp l l).1 then (merge_sort comp l l).2.2
         else (merge_sort comp l l).2.1) ∧
      stable_sort comp l = std_stable_sort comp l) := by
  refine ⟨(merge_sort_correct h l out).2, (merge_sort_correct h l out).1,
    fun hbig => ⟨?_, (claim_C1_stable_sort_correct comp h l).1⟩⟩
  rw [stable_sort, if_neg (by omega)]

/-- Witness for C2 at a concrete comparator, input and scratch list. -/
theorem claim_C2_witness :
    IsSWO (fun a b : Fin 1 => decide (a < b)) ∧
    (((merge_sort (fun a b : Fin 1 => decide (a < b))
        (List.replicate 4000 0) (List.replicate 4000 0)).1 = false →
      (merge_sort (fun a b : Fin 1 => decide (a < b))
        (List.replicate 4000 0) (List.replicate 4000 0)).2.1 =
        std_stable_sort (fun a b : Fin 1 => decide (a < b))
          (List.replicate 4000 0)) ∧
    ((merge_sort (fun a b : Fin 1 => decide (a < b))
        (List.replicate 4000 0) (List.replicate 4000 0)).1 = true →
      (merge_sort (fun a b : Fin 1 => decide (a < b))
        (List.replicate 4000 0) (List.replicate 4000 0)).2.2 =
        std_stable_sort (fun a b : Fin 1 => decide (a < b))
          (List.replicate 4000 0)) ∧
    (CILKSTL_PARALLEL_CUTOFF ≤ (List.replicate (α := Fin 1) 4000 0).length →
      stable_sort (fun a b : Fin 1 => decide (a < b)) (List.replicate 4000 0) =
        (if (merge_sort (fun a b : Fin 1 => decide (a < b))
            (List.replicate 4000 0) (List.replicate 4000 0)).1 then
          (merge_sort (fun a b : Fin 1 => decide (a < b))
            (List.replicate 4000 0) (List.replicate 4000 0)).2.2
         else
          (merge_sort (fun a b : Fin 1 => decide (a < b))
            (List.replicate 4000 0) (List.replicate 4000 0)).2.1) ∧
      stable_sort (fun a b : Fin 1 => decide (a < b)) (List.replicate 4000 0) =
        std_stable_sort (fun a b : Fin 1 => decide (a < b))
          (List.replicate 4000 0))) :=
  ⟨by unfold IsSWO; decide, claim_C2_merge_sort_flag (fun a b : Fin 1 => decide (a < b))
    (by unfold IsSWO; decide) (List.replicate 4000 0) (List.replicate 4000 0)⟩

/-- Design constant from src/cilk_algorithm.h line 213. -/
def BINARY_GRAIN_SIZE : Nat := 2000

/-- Design constant from src/cilk_algorithm.h line 275. -/
def FIND2_GRAIN_SIZE : Nat := 2400

/-- Contract model of std::find on a range: offset of the first element equal
to the value, or the length of the range when no element matches. -/
def std_find {α : Type} [BEq α] (l : List α) (v : α) : Nat :=
  l.findIdx (fun x => x == v)

theorem std_find_le_length {α : Type} [BEq α] (l : List α) (v : α) :
    std_find l v ≤ l.length :=
  List.findIdx_le_length _

/-- Model of find (src/cilk_algorithm.h lines 253-272): the returned iterator
as an offset from first.  Below the grain size it is the serial std::find;
otherwise the two halves are solved recursively (serial elision of the
spawn), and the left result is preferred unless it is the left-half end
iterator middle. -/
def find {α : Type} [BEq α] (l : List α) (v : α) : Nat :=
  if l.length < BINARY_GRAIN_SIZE then std_find l v
  else
    if find (l.take (l.length / 2)) v ≠ l.length / 2 then
      find (l.take (l.length / 2)) v
    else l.length / 2 + find (l.drop (l.length / 2)) v
termination_by l.length
decreasing_by
  all_goals simp only [List.length_take, List.length_drop,
    BINARY_GRAIN_SIZE] at *
  all_goals omega

theorem find_eq_std_aux {α : Type} [BEq α] (v : α) :
    ∀ n (l : List α), l.length ≤ n → find l v = std_find l v := by
  intro n
  induction n with
  | zero =>
    intro l hl
    rw [find, if_pos (by simp only [BINARY_GRAIN_SIZE]; omega)]
  | succ m ih =>
    intro l hl
    by_cases hsmall : l.length < BINARY_GRAIN_SIZE
    · rw [find, if_pos hsmall]
    · rw [find, if_neg hsmall]
      rw [BINARY_GRAIN_SIZE] at hsmall
      have hAlen : (l.take (l.length / 2)).length = l.length / 2 := by
        simp only [List.length_take]; omega
      have ihA := ih (l.take (l.length / 2)) (by rw [hAlen]; omega)
      have ihB := ih (l.drop (l.length / 2))
        (by simp only [List.length_drop]; omega)
      have hsplit : std_find l v =
          if std_find (l.take (l.length / 2)) v < l.length / 2 then
            std_find (l.take (l.length / 2)) v
          else std_find (l.drop (l.length / 2)) v + l.length / 2 := by
        conv_lhs => rw [show l = l.take (l.length / 2) ++ l.drop (l.length / 2)
          from (List.take_append_drop _ l).symm]
        rw [std_find, List.findIdx_append, hAlen]
        rfl
      simp only [ihA, ihB]
      by_cases hL : std_find (l.take (l.length / 2)) v = l.length / 2
      · rw [if_neg (by omega), hsplit, if_neg (by omega), Nat.add_comm]
      · have hle := std_find_le_length (l.take (l.length / 2)) v
        rw [hAlen] at hle
        rw [if_pos (by omega), hsplit, if_pos (by omega)]

/-- Sequential elision of the CAS loop of __find2
(src/cilk_algorithm.h lines 297-299): for (z = idx; r < z; z = idx)
idx.compare_exchange_weak(z, r).  A successful exchange stores r; the loop
exits as soon as idx is at most r, so in the sequential semantics the cell
ends at r exactly when r is strictly below the current value. -/
def cas_loop (r idx : Nat) : Nat :=
  if r < idx then r else idx

/-- The serial std::find of the __find2 base case, as the absolute offset
r = result - begin of the first match in the sub-range [s, e), with r = e
when no element of the sub-range matches. -/
def slice_find {α : Type} [BEq α] (l : List α) (v : α) (s e : Nat) : Nat :=
  s + std_find ((l.drop s).take (e - s)) v

/-- Model of __find2 (src/cilk_algorithm.h lines 282-310).  The shared atomic
idx is threaded as state in program order (serial elision: the spawned left
half runs before the right half, which observes its update).  A task whose
start offset is not below the current idx returns at once; small sub-ranges
run the serial find and push a found offset through the CAS loop. -/
def __find2 {α : Type} [BEq α] (l : List α) (v : α) (s e idx : Nat) : Nat :=
  if s < idx then
    if e - s < FIND2_GRAIN_SIZE then
      if slice_find l v s e < e then cas_loop (slice_find l v s e) idx else idx
    else
      __find2 l v (s + (e - s) / 2) e (__find2 l v s (s + (e - s) / 2) idx)
  else idx
termination_by e - s
decreasing_by
  · simp only [FIND2_GRAIN_SIZE] at *
    omega
  · simp only [FIND2_GRAIN_SIZE] at *
    omega

/-- Model of find2 (src/cilk_algorithm.h lines 316-327): serial std::find up
to twice the grain size, otherwise the pruned parallel search starting from
the sentinel idx = range length; the returned iterator is first + idx. -/
def find2 {α : Type} [BEq α] (l : List α) (v : α) : Nat :=
  if l.length ≤ 2 * FIND2_GRAIN_SIZE then std_find l v
  else __find2 l v 0 l.length l.length

theorem slice_find_ge {α : Type} [BEq α] (l : List α) (v : α) (s e : Nat) :
    s ≤ slice_find l v s e :=
  Nat.le_add_right s _

theorem slice_find_split {α : Type} [BEq α] (l : List α) (v : α) {s mid e : Nat}
    (hsm : s ≤ mid) (hme : mid ≤ e) (he : e ≤ l.length) :
    slice_find l v s e =
      if slice_find l v s mid < mid then slice_find l v s mid
      else slice_find l v mid e := by
  have hsl : (l.drop s).take (e - s) =
      (l.drop s).take (mid - s) ++ (l.drop mid).take (e - mid) := by
    rw [show e - s = (mid - s) + (e - mid) by omega, List.take_add]
    congr 1
    rw [List.drop_drop, show s + (mid - s) = mid by omega]
  have hAlen : ((l.drop s).take (mid - s)).length = mid - s := by
    simp only [List.length_take, List.length_drop]
    omega
  by_cases hfA : ((l.drop s).take (mid - s)).findIdx (fun x => x == v) < mid - s
  · rw [if_pos (by simp only [slice_find, std_find]; omega)]
    simp only [slice_find, std_find, hsl, List.findIdx_append, hAlen]
    rw [if_pos hfA]
  · rw [if_neg (by simp only [slice_find, std_find]; omega)]
    simp only [slice_find, std_find, hsl, List.findIdx_append, hAlen]
    rw [if_neg hfA]
    omega

/-- Characterization of __find2 in the sequential semantics: it lowers idx to
the offset of the first match of the sub-range when that offset is below e,
and otherwise leaves idx unchanged. -/
theorem __find2_eq {α : Type} [BEq α] (l : List α) (v : α) :
    ∀ n s e idx, e - s ≤ n → e ≤ l.length →
      __find2 l v s e idx =
        if slice_find l v s e < e then min idx (slice_find l v s e) else idx := by
  intro n
  induction n with
  | zero =>
    intro s e idx hn he
    rw [__find2]
    by_cases hs : s < idx
    · rw [if_pos hs, if_pos (by simp only [FIND2_GRAIN_SIZE]; omega)]
      split
      · next hq =>
        rw [cas_loop]
        rcases Nat.lt_or_ge (slice_find l v s e) idx with hlt | hge
        · rw [if_pos hlt, Nat.min_eq_right (Nat.le_of_lt hlt)]
        · rw [if_neg (by omega), Nat.min_eq_left hge]
      · rfl
    · rw [if_neg hs]
      split
      · next hq =>
        have := slice_find_ge l v s e
        rw [Nat.min_eq_left (by omega)]
      · rfl
  | succ m ih =>
    intro s e idx hn he
    rw [__find2]
    by_cases hs : s < idx
    · rw [if_pos hs]
      by_cases hsmall : e - s < FIND2_GRAIN_SIZE
      · rw [if_pos hsmall]
        split
        · next hq =>
          rw [cas_loop]
          rcases Nat.lt_or_ge (slice_find l v s e) idx with hlt | hge
          · rw [if_pos hlt, Nat.min_eq_right (Nat.le_of_lt hlt)]
          · rw [if_neg (by omega), Nat.min_eq_left hge]
        · rfl
      · rw [if_neg hsmall]
        rw [FIND2_GRAIN_SIZE] at hsmall
        have hsm : s ≤ s + (e - s) / 2 := Nat.le_add_right _ _
        have hme : s + (e - s) / 2 ≤ e := by omega
        have ihL := ih s (s + (e - s) / 2) idx (by omega) (by omega)
        rw [ihL]
        have hgoal := slice_find_split l v hsm hme he
        by_cases hqL : slice_find l v s (s + (e - s) / 2) < s + (e - s) / 2
        · rw [if_pos hqL] at *
          have ihR := ih (s + (e - s) / 2) e
            (min idx (slice_find l v s (s + (e - s) / 2))) (by omega) he
          rw [ihR, hgoal]
          have hqLe : slice_find l v s (s + (e - s) / 2) < e := by omega
          rw [if_pos hqLe]
          split
          · next hqR =>
            have hle := slice_find_ge l v (s + (e - s) / 2) e
            omega
          · rfl
        · rw [if_neg hqL] at *
          have ihR := ih (s + (e - s) / 2) e idx (by omega) he
          rw [ihR, hgoal]
    · rw [if_neg hs]
      split
      · next hq =>
        have := slice_find_ge l v s e
        rw [Nat.min_eq_left (by omega)]
      · rfl

/-- C4: both find and find2 return exactly the canonical serial result: the
offset of the lowest-index element equal to the value, or the end of the
range when no element matches. -/
theorem claim_C4_find_find2_eq_std {α : Type} [BEq α] (l : List α) (v : α) :
    find l v = std_find l v ∧ find2 l v = std_find l v := by
  refine ⟨find_eq_std_aux v l.length l le_rfl, ?_⟩
  rw [find2]
  by_cases hsmall : l.length ≤ 2 * FIND2_GRAIN_SIZE
  · rw [if_pos hsmall]
  · rw [if_neg hsmall]
    rw [__find2_eq l v l.length 0 l.length l.length (by omega) le_rfl]
    have hq : slice_find l v 0 l.length = std_find l v := by
      rw [slice_find, List.drop_zero, Nat.sub_zero, List.take_length,
        Nat.zero_add]
    rw [hq]
    split
    · next hlt => rw [Nat.min_eq_right (Nat.le_of_lt hlt)]
    · next hge =>
      have := std_find_le_length l v
      omega

theorem __find2_le {α : Type} [BEq α] (l : List α) (v : α) :
    ∀ n s e idx, e - s ≤ n → __find2 l v s e idx ≤ idx := by
  intro n
  induction n with
  | zero =>
    intro s e idx hn
    rw [__find2]
    by_cases hs : s < idx
    · rw [if_pos hs, if_pos (by simp only [FIND2_GRAIN_SIZE]; omega)]
      split
      · rw [cas_loop]; split <;> omega
      · exact le_rfl
    · rw [if_neg hs]
  | succ m ih =>
    intro s e idx hn
    rw [__find2]
    by_cases hs : s < idx
    · rw [if_pos hs]
      by_cases hsmall : e - s < FIND2_GRAIN_SIZE
      · rw [if_pos hsmall]
        split
        · rw [cas_loop]; split <;> omega
        · exact le_rfl
      · rw [if_neg hsmall]
        rw [FIND2_GRAIN_SIZE] at hsmall
        have h1 := ih s (s + (e - s) / 2) idx (by omega)
        have h2 := ih (s + (e - s) / 2) e
          (__find2 l v s (s + (e - s) / 2) idx) (by omega)
        omega
    · rw [if_neg hs]

/-- C5: the shared index never increases.  First conjunct: across any task
the final idx is at most the initial idx (monotone non-increase in the
sequential semantics).  Second: a successful pass through the CAS loop stores
a strictly smaller value (when the cell changes at all, the new value is r
and r was strictly below the old value).  Third: a task whose start offset is
at or beyond the current idx returns immediately with idx unchanged. -/
theorem claim_C5_find2_idx_monotone {α : Type} [BEq α] (l : List α) (v : α) :
    (∀ s e idx, __find2 l v s e idx ≤ idx) ∧
    (∀ r idx, cas_loop r idx ≤ idx ∧
      (cas_loop r idx ≠ idx → cas_loop r idx = r ∧ r < idx)) ∧
    (∀ s e idx, idx ≤ s → __find2 l v s e idx = idx) := by
  refine ⟨fun s e idx => __find2_le l v (e - s) s e idx le_rfl,
    fun r idx => ⟨by rw [cas_loop]; split <;> omega, fun hne => ?_⟩,
    fun s e idx hle => ?_⟩
  · rw [cas_loop] at hne ⊢
    split
    · next hlt => exact ⟨rfl, hlt⟩
    · next hge => rw [if_neg hge] at hne; exact absurd rfl hne
  · rw [__find2, if_neg (by omega)]

/-- Witness for C5 at a concrete element type, list and arguments. -/
theorem claim_C5_witness :
    ((∀ s e idx, __find2 [5, 3, 5] 5 s e idx ≤ idx) ∧
    (∀ r idx, cas_loop r idx ≤ idx ∧
      (cas_loop r idx ≠ idx → cas_loop r idx = r ∧ r < idx)) ∧
    (∀ s e idx, idx ≤ s → __find2 [5, 3, 5] 5 s e idx = idx)) ∧
    cas_loop 1 2 = 1 ∧ cas_loop 2 1 = 1 :=
  ⟨claim_C5_find2_idx_monotone [5, 3, 5] 5, by decide, by decide⟩

/-- The invariant of C10: idx is the sentinel (range length) or the offset of
an element equal to the value. -/
def Find2Inv {α : Type} [BEq α] (l : List α) (v : α) (idx : Nat) : Prop :=
  idx = l.length ∨ ∃ hlt : idx < l.length, (l.get ⟨idx, hlt⟩ == v) = true

theorem slice_find_spec {α : Type} [BEq α] {l : List α} {v : α} {s e : Nat}
    (he : e ≤ l.length) (hq : slice_find l v s e < e) :
    ∃ hlt : slice_find l v s e < l.length,
      (l.get ⟨slice_find l v s e, hlt⟩ == v) = true := by
  simp only [slice_find, std_find] at hq ⊢
  have hlen : ((l.drop s).take (e - s)).length = e - s := by
    simp only [List.length_take, List.length_drop]
    omega
  have hfA2 : List.findIdx (fun x => x == v) ((l.drop s).take (e - s)) <
      ((l.drop s).take (e - s)).length := by omega
  have hhit := List.findIdx_getElem (w := hfA2)
  have h3 : s + List.findIdx (fun x => x == v) ((l.drop s).take (e - s)) <
      l.length := by omega
  refine ⟨h3, ?_⟩
  rw [List.get_eq_getElem]
  have hel : ((l.drop s).take (e - s))[List.findIdx (fun x => x == v)
      ((l.drop s).take (e - s))] =
      l[s + List.findIdx (fun x => x == v) ((l.drop s).take (e - s))] := by
    rw [List.getElem_take, List.getElem_drop]
  rw [hel] at hhit
  exact hhit

theorem find2Inv_preserved {α : Type} [BEq α] (l : List α) (v : α)
    (s e idx : Nat) (he : e ≤ l.length) (hinv : Find2Inv l v idx) :
    Find2Inv l v (__find2 l v s e idx) := by
  rw [__find2_eq l v (e - s) s e idx le_rfl he]
  split
  · next hq =>
    rcases Nat.lt_or_ge (slice_find l v s e) idx with hlt | hge
    · rw [Nat.min_eq_right (Nat.le_of_lt hlt)]
      rcases slice_find_spec he hq with ⟨h1, h2⟩
      exact Or.inr ⟨h1, h2⟩
    · rw [Nat.min_eq_left hge]
      exact hinv
  · exact hinv

/-- C10: during any execution of find2 the shared index only ever holds its
sentinel initial value (the range length) or the offset of an element equal
to the searched value (the invariant is preserved by every task), and the
result of find2 is the range length (iterator last) or the offset of an
element equal to the value. -/
theorem claim_C10_find2_invariant {α : Type} [BEq α] [LawfulBEq α]
    (l : List α) (v : α) :
    (∀ s e idx, e ≤ l.length → Find2Inv l v idx →
      Find2Inv l v (__find2 l v s e idx)) ∧
    (find2 l v = l.length ∨
      ∃ hlt : find2 l v < l.length, l.get ⟨find2 l v, hlt⟩ = v) := by
  refine ⟨fun s e idx he hinv => find2Inv_preserved l v s e idx he hinv, ?_⟩
  have hstd : std_find l v = l.length ∨
      ∃ hlt : std_find l v < l.length, l.get ⟨std_find l v, hlt⟩ = v := by
    rcases Nat.lt_or_ge (std_find l v) l.length with hlt | hge
    · refine Or.inr ⟨hlt, ?_⟩
      have := @List.findIdx_getElem _ (fun x => x == v) l hlt
      rw [List.get_eq_getElem]
      exact eq_of_beq this
    · exact Or.inl (by have := std_find_le_length l v; omega)
  rw [find2]
  by_cases hsmall : l.length ≤ 2 * FIND2_GRAIN_SIZE
  · rw [if_pos hsmall]
    exact hstd
  · rw [if_neg hsmall]
    have hres := find2Inv_preserved l v 0 l.length l.length le_rfl
      (Or.inl rfl)
    rcases hres with h1 | ⟨h1, h2⟩
    · exact Or.inl h1
    · exact Or.inr ⟨h1, eq_of_beq h2⟩

/-- Witness for C10 at a concrete list and value. -/
theorem claim_C10_witness :
    ((∀ s e idx, e ≤ ([5, 3, 5] : List Nat).length → Find2Inv [5, 3, 5] 3 idx →
      Find2Inv [5, 3, 5] 3 (__find2 [5, 3, 5] 3 s e idx)) ∧
    (find2 [5, 3, 5] 3 = ([5, 3, 5] : List Nat).length ∨
      ∃ hlt : find2 [5, 3, 5] 3 < ([5, 3, 5] : List Nat).length,
        ([5, 3, 5] : List Nat).get ⟨find2 [5, 3, 5] 3, hlt⟩ = 3)) ∧
    find2 [5, 3, 5] 3 = 1 :=
  ⟨claim_C10_find2_invariant [5, 3, 5] 3, by decide⟩

/-- The contents written by the cilk_for loop of transform
(src/cilk_algorithm.h line 97): out position i receives
transform_func(in[i]) for every i below the range width. -/
def transform_out {α β : Type} (f : α → β) (l : List α) : List β :=
  l.map f

/-- The value category of the expression a return statement of transform
produces: an iterator into the input range, an iterator into the output
range, or the dereference *(d_first + k) of output position k (an element
value, not an iterator). -/
inductive TransformRet where
  | inputIter : Nat → TransformRet
  | outputIter : Nat → TransformRet
  | derefOutput : Nat → TransformRet
deriving DecidableEq

/-- Model of the return statements of transform (src/cilk_algorithm.h lines
91-92 and 98): for an empty range the code returns first, an iterator into
the input range; otherwise the return expression is
*(d_first + range_width), which dereferences the one-past-the-end output
position instead of being the iterator d_first + range_width. -/
def transform_ret (n : Nat) : TransformRet :=
  if n = 0 then TransformRet.inputIter 0 else TransformRet.derefOutput n

/-- C7 (code bug): the parallel loop of transform does write f(in[i]) to
out[i] for every i and leaves the input unchanged, but the function does not
return the iterator out + N for any N: for N = 0 it returns the input-range
iterator first, and for N > 0 its return statement evaluates the dereference
*(out + N) of the one-past-the-end output slot rather than the iterator
out + N. -/
theorem claim_C7_transform_return_bug :
    (∀ (f : Nat → Nat) (l : List Nat) (i : Nat),
      (transform_out f l)[i]? = Option.map f l[i]?) ∧
    (∀ (f : Nat → Nat) (l : List Nat),
      (transform_out f l).length = l.length) ∧
    transform_ret 0 = TransformRet.inputIter 0 ∧
    transform_ret 1 = TransformRet.derefOutput 1 ∧
    ∀ n, transform_ret n ≠ TransformRet.outputIter n := by
  refine ⟨fun f l i => ?_, fun f l => ?_, rfl, rfl, fun n => ?_⟩
  · rw [transform_out, List.getElem?_map]
  · rw [transform_out, List.length_map]
  · rw [transform_ret]
    by_cases hn : n = 0
    · rw [if_pos hn]
      intro hcontra
      exact TransformRet.noConfusion hcontra
    · rw [if_neg hn]
      intro hcontra
      exact TransformRet.noConfusion hcontra

/-- The contents of the input range at the moment merge_sort first stores
through the scratch pointer, for a NULL scratch buffer: the serial elision
descends into the leftmost base case (the spawned left-half call at
src/cilk_stable_sort.h line 150 runs first), std::stable_sort has already
sorted the two halves of that chunk in place (lines 143-144), and
parallel_merge then performs its first store to the NULL buffer (line 145). -/
def merge_sort_nullbuf {α : Type} (comp : α → α → Bool) (l : List α) :
    List α :=
  if l.length / 2 ≤ CILKSTL_PARALLEL_CUTOFF then
    std_stable_sort comp (l.take (l.length / 2)) ++
      std_stable_sort comp (l.drop (l.length / 2))
  else merge_sort_nullbuf comp (l.take (l.length / 2)) ++ l.drop (l.length / 2)
termination_by l.length
decreasing_by
  · simp only [List.length_take, CILKSTL_PARALLEL_CUTOFF] at *
    omega

/-- Model of stable_sort when the shadow-buffer allocation fails: the
StableSortBuffer constructor (src/cilk_stable_sort.h line 30) stores the NULL
result of malloc without any check, and execution continues into merge_sort,
which mutates the input range and then stores through the NULL pointer; the
error value carries the contents of the input range at that crashing store.
Below the cutoff no buffer is acquired and the serial sort succeeds. -/
def stable_sort_nullAlloc {α : Type} (comp : α → α → Bool) (l : List α) :
    Except (List α) (List α) :=
  if l.length < CILKSTL_PARALLEL_CUTOFF then
    Except.ok (std_stable_sort comp l)
  else Except.error (merge_sort_nullbuf comp l)

theorem std_stable_sort_replicate {α : Type} {comp : α → α → Bool} {c : α}
    (hirr : comp c c = false) (k : Nat) :
    std_stable_sort comp (List.replicate k c) = List.replicate k c := by
  induction k with
  | zero => rfl
  | succ j ih =>
    rw [List.replicate_succ]
    have hstep : std_stable_sort comp (c :: List.replicate j c) =
        insertC comp c (std_stable_sort comp (List.replicate j c)) := rfl
    rw [hstep, ih]
    cases j with
    | zero => rfl
    | succ i =>
      rw [List.replicate_succ, insertC, if_neg (by rw [hirr]; exact
        Bool.false_ne_true), ← List.replicate_succ, ← List.replicate_succ]

theorem insertC_replicate_lt {α : Type} {comp : α → α → Bool} {a b : α}
    (hlt : comp b a = true) (k : Nat) :
    insertC comp a (List.replicate k b) = List.replicate k b ++ [a] := by
  induction k with
  | zero => rfl
  | succ j ih =>
    rw [List.replicate_succ, insertC, if_pos hlt, ih, List.cons_append]

/-- C8 (code bug): when the shadow-buffer allocation fails at entry to
stable_sort (range length at least the cutoff), the code does not surface an
allocation error: malloc's NULL result is stored unchecked and the execution
runs into a store through the NULL buffer, and by that moment the input range
has already been mutated (the two halves of the leftmost base-case chunk were
std::stable_sorted in place).  First conjunct: every over-cutoff run with a
failed allocation reaches the crashing store, with the recorded pre-crash
contents.  Remaining conjuncts: a concrete length-4000 input whose pre-crash
contents differ from the original input, refuting the claimed
no-mutation-before-failure behavior. -/
theorem claim_C8_alloc_failure {α : Type} (comp : α → α → Bool) (l : List α) :
    (CILKSTL_PARALLEL_CUTOFF ≤ l.length →
      stable_sort_nullAlloc comp l = Except.error (merge_sort_nullbuf comp l)) ∧
    stable_sort_nullAlloc (fun a b : Nat => decide (a < b))
        (1 :: List.replicate 3999 0) =
      Except.error ((List.replicate 1999 0 ++ [1]) ++ List.replicate 2000 0) ∧
    (List.replicate 1999 0 ++ [1]) ++ List.replicate 2000 0 ≠
      1 :: List.replicate 3999 (0 : Nat) := by
  refine ⟨fun hbig => ?_, ?_, ?_⟩
  · rw [stable_sort_nullAlloc, if_neg (by omega)]
  · have hlen : (1 :: List.replicate 3999 (0 : Nat)).length = 4000 := by
      rw [List.length_cons, List.length_replicate]
    have hmb : merge_sort_nullbuf (fun a b : Nat => decide (a < b))
        (1 :: List.replicate 3999 0) =
        (List.replicate 1999 0 ++ [1]) ++ List.replicate 2000 0 := by
      rw [merge_sort_nullbuf,
        if_pos (by rw [hlen, CILKSTL_PARALLEL_CUTOFF]; omega)]
      rw [hlen, show (4000 : Nat) / 2 = 2000 from by decide]
      rw [show (2000 : Nat) = 1999 + 1 from by decide, List.take_succ_cons,
        List.drop_succ_cons, List.take_replicate, List.drop_replicate]
      rw [show (1999 : Nat) ⊓ 3999 = 1999 from by decide,
        show (3999 : Nat) - 1999 = 2000 from by decide]
      rw [std_stable_sort_cons, std_stable_sort_replicate (by decide),
        insertC_replicate_lt (by decide),
        std_stable_sort_replicate (by decide)]
    rw [stable_sort_nullAlloc,
      if_neg (by rw [hlen, CILKSTL_PARALLEL_CUTOFF]; omega), hmb]
  · intro hcontra
    rw [show (1999 : Nat) = 1998 + 1 from by decide, List.replicate_succ,
      List.cons_append, List.cons_append] at hcontra
    injection hcontra with h1 h2
    exact absurd h1 (by decide)

/-- Witness for C8 discharging the over-cutoff hypothesis at a concrete
input. -/
theorem claim_C8_witness :
    CILKSTL_PARALLEL_CUTOFF ≤ (1 :: List.replicate 3999 (0 : Nat)).length ∧
    stable_sort_nullAlloc (fun a b : Nat => decide (a < b))
        (1 :: List.replicate 3999 0) =
      Except.error (merge_sort_nullbuf (fun a b : Nat => decide (a < b))
        (1 :: List.replicate 3999 0)) :=
  ⟨by rw [List.length_cons, List.length_replicate, CILKSTL_PARALLEL_CUTOFF],
   (claim_C8_alloc_failure (fun a b : Nat => decide (a < b))
      (1 :: List.replicate 3999 0)).1
     (by rw [List.length_cons, List.length_replicate,
       CILKSTL_PARALLEL_CUTOFF])⟩

/-- Design constant from src/cilk_partition.h line 18. -/
def PARTITION_GS : Nat := 4096

/-- Design constant from src/cilk_partition.h line 19. -/
def PART_SIZE : Nat := 64

/-- Dereference of the element at a given offset.  Every dereference the
partition code performs is at an in-range position (proved in the spec
lemmas); the default of the Inhabited instance is never exposed on those
paths. -/
def getd {α : Type} [Inhabited α] (l : List α) (i : Nat) : α :=
  l.getD i default

/-- One std::swap of the elements at two offsets (src/cilk_partition.h
line 43). -/
def lswap {α : Type} [Inhabited α] (l : List α) (i j : Nat) : List α :=
  (l.set i (getd l j)).set j (getd l i)

theorem getd_eq_getElem {α : Type} [Inhabited α] {l : List α} {i : Nat}
    (h : i < l.length) : getd l i = l[i] :=
  List.getD_eq_getElem l default h

theorem getd_out {α : Type} [Inhabited α] {l : List α} {i : Nat}
    (h : l.length ≤ i) : getd l i = default := by
  rw [getd, List.getD_eq_getElem?_getD, List.getElem?_eq_none h]
  rfl

theorem getd_set_self {α : Type} [Inhabited α] {l : List α} {i : Nat} {x : α}
    (h : i < l.length) : getd (l.set i x) i = x := by
  rw [getd, List.getD_eq_getElem?_getD, List.getElem?_set_self h]
  rfl

theorem getd_set_ne {α : Type} [Inhabited α] {l : List α} {i j : Nat} {x : α}
    (h : i ≠ j) : getd (l.set i x) j = getd l j := by
  rw [getd, List.getD_eq_getElem?_getD, List.getElem?_set_ne h,
    ← List.getD_eq_getElem?_getD]
  rfl

theorem length_lswap {α : Type} [Inhabited α] (l : List α) (i j : Nat) :
    (lswap l i j).length = l.length := by
  rw [lswap, List.length_set, List.length_set]

theorem getd_lswap_right {α : Type} [Inhabited α] {l : List α} {i j : Nat}
    (hj : j < l.length) : getd (lswap l i j) j = getd l i := by
  rw [lswap, getd_set_self (by rw [List.length_set]; exact hj)]

theorem getd_lswap_left {α : Type} [Inhabited α] {l : List α} {i j : Nat}
    (hij : i ≠ j) (hi : i < l.length) : getd (lswap l i j) i = getd l j := by
  rw [lswap, getd_set_ne (fun h => hij h.symm), getd_set_self hi]

theorem getd_lswap_other {α : Type} [Inhabited α] {l : List α} {i j q : Nat}
    (hqi : q ≠ i) (hqj : q ≠ j) : getd (lswap l i j) q = getd l q := by
  rw [lswap, getd_set_ne (fun h => hqj h.symm), getd_set_ne (fun h => hqi h.symm)]

/-- A swap of two in-range positions permutes the list. -/
theorem lswap_perm {α : Type} [Inhabited α] {l : List α} {i j : Nat}
    (hij : i < j) (hj : j < l.length) : (lswap l i j).Perm l := by
  have hi : i < l.length := Nat.lt_trans hij hj
  have hd1 : l.set i (getd l j) =
      l.take i ++ getd l j :: l.drop (i + 1) := by
    rw [List.set_eq_take_append_cons_drop, if_pos hi]
  have hlen : (l.take i).length = i := by
    rw [List.length_take]
    omega
  have hd2 : lswap l i j = l.take i ++ getd l j ::
      ((l.drop (i + 1)).take (j - i - 1) ++ getd l i :: l.drop (j + 1)) := by
    rw [lswap, hd1, List.set_append_right _ _ (by omega),
      show j - (l.take i).length = (j - i - 1) + 1 by omega,
      List.set_cons_succ,
      List.set_eq_take_append_cons_drop,
      if_pos (by rw [List.length_drop]; omega),
      List.drop_drop,
      show i + 1 + (j - i - 1 + 1) = j + 1 by omega]
  have e1 : l.drop j = getd l j :: l.drop (j + 1) := by
    rw [List.drop_eq_getElem_cons hj, getd_eq_getElem hj]
  have e2 : l.drop (i + 1) =
      (l.drop (i + 1)).take (j - i - 1) ++ getd l j :: l.drop (j + 1) := by
    conv_lhs => rw [← List.take_append_drop (j - i - 1) (l.drop (i + 1))]
    rw [List.drop_drop, show i + 1 + (j - i - 1) = j by omega, e1]
  have e3 : l.drop i = getd l i :: l.drop (i + 1) := by
    rw [List.drop_eq_getElem_cons hi, getd_eq_getElem hi]
  have hd3 : l = l.take i ++ getd l i ::
      ((l.drop (i + 1)).take (j - i - 1) ++ getd l j :: l.drop (j + 1)) := by
    conv_lhs => rw [← List.take_append_drop i l, e3, e2]
  rw [hd2]
  conv_rhs => rw [hd3]
  apply List.Perm.append_left
  refine List.Perm.trans (List.Perm.cons _ List.perm_middle) ?_
  refine List.Perm.trans (List.Perm.swap _ _ _) ?_
  exact List.Perm.cons _ List.perm_middle.symm

/-- The advance loop of strided_partition (src/cilk_partition.h lines 44-45):
while p(*s) and s is left of e, s moves forward by part_size.  Pointers into
the stride are modelled by their stride index: the pointer first + o + i * ps
has index i, and advancing by part_size increments the index. -/
def advance_idx {α : Type} [Inhabited α] (p : α → Bool) (g : List α)
    (o ps e : Nat) (i : Nat) : Nat :=
  if h : i < e ∧ p (getd g (o + i * ps)) = true then
    advance_idx p g o ps e (i + 1)
  else i
termination_by e - i
decreasing_by omega

/-- The retreat loop of strided_partition (src/cilk_partition.h lines 46-47):
while not p(*e) and s is left of e, e moves back by part_size, in stride
indices. -/
def retreat_idx {α : Type} [Inhabited α] (p : α → Bool) (g : List α)
    (o ps s : Nat) (j : Nat) : Nat :=
  if h : s < j ∧ p (getd g (o + j * ps)) = false then
    retreat_idx p g o ps s (j - 1)
  else j
termination_by j
decreasing_by omega

theorem advance_idx_spec {α : Type} [Inhabited α] (p : α → Bool) (g : List α)
    (o ps e : Nat) : ∀ n i, e - i ≤ n →
    i ≤ advance_idx p g o ps e i ∧
    (i ≤ e → advance_idx p g o ps e i ≤ e) ∧
    (∀ q, i ≤ q → q < advance_idx p g o ps e i →
      p (getd g (o + q * ps)) = true) ∧
    (advance_idx p g o ps e i < e →
      p (getd g (o + advance_idx p g o ps e i * ps)) = false) := by
  intro n
  induction n with
  | zero =>
    intro i hn
    rw [advance_idx]
    rw [dif_neg (by omega)]
    refine ⟨le_rfl, fun h => h, fun q hq1 hq2 => by omega, fun hlt => by omega⟩
  | succ m ih =>
    intro i hn
    rw [advance_idx]
    split
    · next h =>
      have ihn := ih (i + 1) (by omega)
      refine ⟨by omega, fun _ => ihn.2.1 (by omega), fun q hq1 hq2 => ?_,
        ihn.2.2.2⟩
      rcases Nat.eq_or_lt_of_le hq1 with hq | hq
      · rw [← hq]; exact h.2
      · exact ihn.2.2.1 q (by omega) hq2
    · next h =>
      refine ⟨le_rfl, fun h2 => h2, fun q hq1 hq2 => by omega, fun hlt => ?_⟩
      rw [Classical.not_and_iff_or_not_not] at h
      rcases h with h | h
      · omega
      · rw [Bool.not_eq_true] at h; exact h

theorem retreat_idx_spec {α : Type} [Inhabited α] (p : α → Bool) (g : List α)
    (o ps s : Nat) : ∀ n j, j ≤ n →
    retreat_idx p g o ps s j ≤ j ∧
    (s ≤ j → s ≤ retreat_idx p g o ps s j) ∧
    (∀ q, retreat_idx p g o ps s j < q → q ≤ j →
      p (getd g (o + q * ps)) = false) ∧
    (s < retreat_idx p g o ps s j →
      p (getd g (o + retreat_idx p g o ps s j * ps)) = true) := by
  intro n
  induction n with
  | zero =>
    intro j hn
    rw [retreat_idx]
    rw [dif_neg (by omega)]
    refine ⟨le_rfl, fun h => h, fun q hq1 hq2 => by omega, fun hlt => by omega⟩
  | succ m ih =>
    intro j hn
    rw [retreat_idx]
    split
    · next h =>
      have ihn := ih (j - 1) (by omega)
      refine ⟨by omega, fun _ => by have := ihn.2.1 (by omega); omega,
        fun q hq1 hq2 => ?_, ihn.2.2.2⟩
      rcases Nat.eq_or_lt_of_le hq2 with hq | hq
      · rw [hq]; exact h.2
      · exact ihn.2.2.1 q hq1 (by omega)
    · next h =>
      refine ⟨le_rfl, fun h2 => h2, fun q hq1 hq2 => by omega, fun hlt => ?_⟩
      rw [Classical.not_and_iff_or_not_not] at h
      rcases h with h | h
      · omega
      · rw [Bool.not_eq_false] at h; exact h

theorem stuck_p_true {α : Type} [Inhabited α] (p : α → Bool) (g : List α)
    {qi qj : Nat} (hadv : p (getd (lswap g qi qj) qi) = false)
    (hret : p (getd (lswap g qi qj) qj) = true) :
    p (getd g qi) = true := by
  by_cases hj : qj < g.length
  · rw [getd_lswap_right hj] at hret
    exact hret
  · have hout : getd (lswap g qi qj) qj = default :=
      getd_out (by rw [length_lswap]; omega)
    have hgj : getd g qj = default := getd_out (by omega)
    have hqi : getd (lswap g qi qj) qi = default := by
      by_cases hi : qi < g.length
      · by_cases hij : qi = qj
        · exact absurd (hij ▸ hi) hj
        · rw [getd_lswap_left hij hi, hgj]
      · exact getd_out (by rw [length_lswap]; omega)
    rw [hout] at hret
    rw [hqi, hret] at hadv
    exact Bool.noConfusion hadv

/-- The outer loop of strided_partition (src/cilk_partition.h lines 42-48):
while s is left of e, swap the elements, then advance s over the satisfying
prefix and retreat e over the failing suffix, all in steps of part_size.
Pointer s = first + o + i * part_size is represented by its stride index i,
and the array is threaded through; the result is the final array and the
final index of s.  The loop terminates because every iteration either closes
the gap between the pointers or (when the advance and retreat both stall
right after the swap) makes the element under s fail the predicate, after
which the next iteration must advance. -/
def stride_loop {α : Type} [Inhabited α] (p : α → Bool) (o ps : Nat)
    (g : List α) (i j : Nat) : List α × Nat :=
  if h : i < j then
    stride_loop p o ps (lswap g (o + i * ps) (o + j * ps))
      (advance_idx p (lswap g (o + i * ps) (o + j * ps)) o ps j i)
      (retreat_idx p (lswap g (o + i * ps) (o + j * ps)) o ps
        (advance_idx p (lswap g (o + i * ps) (o + j * ps)) o ps j i) j)
  else (g, i)
termination_by 2 * (j - i) + (if p (getd g (o + i * ps)) = true then 1 else 0)
decreasing_by
  have hadv := advance_idx_spec p (lswap g (o + i * ps) (o + j * ps)) o ps j
    (j - i) i le_rfl
  have hret := retreat_idx_spec p (lswap g (o + i * ps) (o + j * ps)) o ps
    (advance_idx p (lswap g (o + i * ps) (o + j * ps)) o ps j i) j j le_rfl
  have hi2j : advance_idx p (lswap g (o + i * ps) (o + j * ps)) o ps j i ≤ j :=
    hadv.2.1 (Nat.le_of_lt h)
  by_cases hstuck :
      advance_idx p (lswap g (o + i * ps) (o + j * ps)) o ps j i = i ∧
      retreat_idx p (lswap g (o + i * ps) (o + j * ps)) o ps
        (advance_idx p (lswap g (o + i * ps) (o + j * ps)) o ps j i) j = j
  · have hpi : p (getd (lswap g (o + i * ps) (o + j * ps)) (o + i * ps)) =
        false := by
      have h4 := hadv.2.2.2
      rw [hstuck.1] at h4
      exact h4 h
    have hpj : p (getd (lswap g (o + i * ps) (o + j * ps)) (o + j * ps)) =
        true := by
      have h4 := hret.2.2.2
      rw [hstuck.2] at h4
      exact h4 (by rw [hstuck.1]; exact h)
    have hgi : p (getd g (o + i * ps)) = true := stuck_p_true p g hpi hpj
    rw [hstuck.2, hstuck.1, hpi, hgi]
    simp only [Bool.false_eq_true, if_false, if_true]
    omega
  · have hmove : i <
        advance_idx p (lswap g (o + i * ps) (o + j * ps)) o ps j i ∨
        retreat_idx p (lswap g (o + i * ps) (o + j * ps)) o ps
          (advance_idx p (lswap g (o + i * ps) (o + j * ps)) o ps j i) j <
          j := by
      rcases Classical.not_and_iff_or_not_not.mp hstuck with h1 | h1
      · exact Or.inl (by have := hadv.1; omega)
      · exact Or.inr (by have := hret.1; omega)
    have hij2 := hret.2.1 hi2j
    have hj2 := hret.1
    have e1 : (if p (getd (lswap g (o + i * ps) (o + j * ps))
        (o + advance_idx p (lswap g (o + i * ps) (o + j * ps)) o ps j i * ps))
          = true then 1 else 0) ≤ 1 := by
      split <;> omega
    have e2 : 0 ≤ (if p (getd g (o + i * ps)) = true then 1 else 0) := by
      omega
    omega

theorem stride_loop_spec {α : Type} [Inhabited α] (p : α → Bool) (o ps : Nat)
    (hps : 0 < ps) :
    ∀ n (g : List α) (i j : Nat),
      2 * (j - i) + (if p (getd g (o + i * ps)) = true then 1 else 0) ≤ n →
      i ≤ j → o + j * ps < g.length →
      (∀ k, k < i → p (getd g (o + k * ps)) = true) →
      (∀ k, j < k → o + k * ps < g.length → p (getd g (o + k * ps)) = false) →
      (stride_loop p o ps g i j).1.Perm g ∧
      (stride_loop p o ps g i j).1.length = g.length ∧
      (∀ q, (∀ k, k ≤ j → q ≠ o + k * ps) →
        getd (stride_loop p o ps g i j).1 q = getd g q) ∧
      i ≤ (stride_loop p o ps g i j).2 ∧
      (stride_loop p o ps g i j).2 ≤ j ∧
      (∀ k, k < (stride_loop p o ps g i j).2 →
        p (getd (stride_loop p o ps g i j).1 (o + k * ps)) = true) ∧
      (∀ k, (stride_loop p o ps g i j).2 < k → o + k * ps < g.length →
        p (getd (stride_loop p o ps g i j).1 (o + k * ps)) = false) := by
  intro n
  induction n with
  | zero =>
    intro g i j hn hij hj hinv3 hinv4
    have hji : ¬ i < j := by omega
    rw [stride_loop, dif_neg hji]
    refine ⟨List.Perm.refl g, rfl, fun q hq => rfl, le_rfl, hij, hinv3, ?_⟩
    intro k hk hkr
    exact hinv4 k (by omega) hkr
  | succ m ih =>
    intro g i j hn hij hj hinv3 hinv4
    by_cases hlt : i < j
    case neg =>
      rw [stride_loop, dif_neg hlt]
      refine ⟨List.Perm.refl g, rfl, fun q hq => rfl, le_rfl, hij, hinv3, ?_⟩
      intro k hk hkr
      exact hinv4 k (by omega) hkr
    case pos =>
      rw [stride_loop, dif_pos hlt]
      set w := lswap g (o + i * ps) (o + j * ps) with hw
      have hadv := advance_idx_spec p w o ps j (j - i) i le_rfl
      set i2 := advance_idx p w o ps j i with hi2def
      have hret := retreat_idx_spec p w o ps i2 j j le_rfl
      set j2 := retreat_idx p w o ps i2 j with hj2def
      have h1 : i ≤ i2 := hadv.1
      have h2 : i2 ≤ j := hadv.2.1 (Nat.le_of_lt hlt)
      have h3 : j2 ≤ j := hret.1
      have h4 : i2 ≤ j2 := hret.2.1 h2
      have hwlen : w.length = g.length := length_lswap g _ _
      have hqiqj : o + i * ps < o + j * ps := by
        have := (Nat.mul_lt_mul_right hps).mpr hlt
        omega
      have hperm : w.Perm g := lswap_perm hqiqj hj
      have hmu : 2 * (j2 - i2) +
          (if p (getd w (o + i2 * ps)) = true then 1 else 0) ≤ m := by
        by_cases hstuck : i2 = i ∧ j2 = j
        · have hpi : p (getd w (o + i * ps)) = false := by
            have ha := hadv.2.2.2
            rw [hstuck.1] at ha
            exact ha hlt
          have hpj : p (getd w (o + j * ps)) = true := by
            have hb := hret.2.2.2
            rw [hstuck.2] at hb
            exact hb (by rw [hstuck.1]; exact hlt)
          have hgi : p (getd g (o + i * ps)) = true := stuck_p_true p g hpi hpj
          rw [hstuck.1, hstuck.2, hpi]
          rw [hgi] at hn
          simp only [if_true] at hn
          simp only [Bool.false_eq_true, if_false]
          omega
        · have e1 : (if p (getd w (o + i2 * ps)) = true then 1 else 0) ≤ 1 := by
            split <;> omega
          rcases Classical.not_and_iff_or_not_not.mp hstuck with hc | hc
          · have hc2 : i < i2 := by omega
            omega
          · have hc2 : j2 < j := by omega
            omega
      have hinv3w : ∀ k, k < i2 → p (getd w (o + k * ps)) = true := by
        intro k hk
        rcases Nat.lt_or_ge k i with hki | hki
        · have hne1 : o + k * ps ≠ o + i * ps := by
            have := (Nat.mul_lt_mul_right hps).mpr hki
            omega
          have hne2 : o + k * ps ≠ o + j * ps := by
            have := (Nat.mul_lt_mul_right hps).mpr (show k < j by omega)
            omega
          rw [hw, getd_lswap_other hne1 hne2]
          exact hinv3 k hki
        · exact hadv.2.2.1 k hki hk
      have hinv4w : ∀ k, j2 < k → o + k * ps < w.length →
          p (getd w (o + k * ps)) = false := by
        intro k hk hkr
        rcases Nat.lt_or_ge j k with hkj | hkj
        · have hne1 : o + k * ps ≠ o + i * ps := by
            have := (Nat.mul_lt_mul_right hps).mpr (show i < k by omega)
            omega
          have hne2 : o + k * ps ≠ o + j * ps := by
            have := (Nat.mul_lt_mul_right hps).mpr hkj
            omega
          rw [hw, getd_lswap_other hne1 hne2]
          rw [hwlen] at hkr
          exact hinv4 k hkj hkr
        · exact hret.2.2.1 k hk hkj
      have hjw : o + j2 * ps < w.length := by
        have := Nat.mul_le_mul_right ps h3
        rw [hwlen]
        omega
      have ihw := ih w i2 j2 hmu h4 hjw hinv3w hinv4w
      refine ⟨ihw.1.trans hperm, ihw.2.1.trans hwlen, ?_,
        Nat.le_trans h1 ihw.2.2.2.1, Nat.le_trans ihw.2.2.2.2.1 h3,
        ihw.2.2.2.2.2.1, ?_⟩
      · intro q hq
        have hstep := ihw.2.2.1 q (fun k hk => hq k (Nat.le_trans hk h3))
        rw [hstep, hw, getd_lswap_other (hq i (Nat.le_of_lt hlt)) (hq j le_rfl)]
      · intro k hk hkr
        exact ihw.2.2.2.2.2.2 k hk (by rw [hwlen]; exact hkr)

/-- The initialization of the end pointer e of strided_partition
(src/cilk_partition.h lines 36-39), as an offset from first: with
part_size = range_width / num_parts (line 32), e starts at
part_size * num_parts + offset when that is inside the range, else at
part_size * (num_parts - 1) + offset. -/
def strided_e_init (n np o : Nat) : Nat :=
  if (n / np) * np + o < n then (n / np) * np + o
  else (n / np) * (np - 1) + o

/-- Model of strided_partition (src/cilk_partition.h lines 26-57): the
two-pointer loop over the stride-o positions (stride index form, s = first +
o + i * part_size), then the returned cut: s - first + 1 when p(*s) holds at
the final s, else s - first. -/
def strided_partition {α : Type} [Inhabited α] (p : α → Bool) (l : List α)
    (np o : Nat) : List α × Nat :=
  let ps := l.length / np
  let m := (strided_e_init l.length np o - o) / ps
  let r := stride_loop p o ps l 0 m
  (r.1,
   if p (getd r.1 (o + r.2 * ps)) = true then o + r.2 * ps + 1
   else o + r.2 * ps)

theorem strided_partition_spec {α : Type} [Inhabited α] (p : α → Bool)
    (l : List α) (np o : Nat) (hnp : 0 < np) (hps : 0 < l.length / np)
    (ho : o < l.length / np)
    (hrem : l.length < (l.length / np) * (np + 1)) :
    (strided_partition p l np o).1.Perm l ∧
    (strided_partition p l np o).1.length = l.length ∧
    (∀ q, q % (l.length / np) ≠ o →
      getd (strided_partition p l np o).1 q = getd l q) ∧
    (∀ k, o + k * (l.length / np) < l.length →
      (o + k * (l.length / np) < (strided_partition p l np o).2 →
        p (getd (strided_partition p l np o).1 (o + k * (l.length / np))) =
          true) ∧
      ((strided_partition p l np o).2 ≤ o + k * (l.length / np) →
        p (getd (strided_partition p l np o).1 (o + k * (l.length / np))) =
          false)) ∧
    (strided_partition p l np o).2 ≤ l.length ∧
    (∃ fi, (strided_partition p l np o).2 =
      if p (getd (strided_partition p l np o).1
          (o + fi * (l.length / np))) = true
      then o + fi * (l.length / np) + 1 else o + fi * (l.length / np)) := by
  have hlen : (l.length / np) * np ≤ l.length := Nat.div_mul_le_self _ _
  set ps := l.length / np with hpsdef
  set m := (strided_e_init l.length np o - o) / ps with hmdef
  have he_eq : o + m * ps = strided_e_init l.length np o ∧
      strided_e_init l.length np o < l.length ∧
      (∀ k, o + k * ps < l.length → k ≤ m) := by
    rw [strided_e_init] at *
    by_cases hcase : ps * np + o < l.length
    · rw [if_pos hcase] at *
      have hm : m = np := by
        rw [hmdef, Nat.add_sub_cancel, Nat.mul_comm ps np,
          Nat.mul_div_cancel _ hps]
      refine ⟨by rw [hm]; ring, hcase, fun k hk => ?_⟩
      rw [hm]
      by_contra hcon
      have hge : np + 1 ≤ k := by omega
      have := Nat.mul_le_mul_right ps hge
      have := Nat.mul_comm ps (np + 1)
      omega
    · rw [if_neg hcase] at *
      have hm : m = np - 1 := by
        rw [hmdef, Nat.add_sub_cancel, Nat.mul_comm ps (np - 1),
          Nat.mul_div_cancel _ hps]
      have hlt : ps * (np - 1) + o < l.length := by
        have h2 : np - 1 + 1 = np := by omega
        have h3 : ps * (np - 1 + 1) = ps * (np - 1) + ps := by ring
        rw [h2] at h3
        omega
      refine ⟨by rw [hm]; ring, hlt, fun k hk => ?_⟩
      rw [hm]
      by_contra hcon
      have hge : np ≤ k := by omega
      have := Nat.mul_le_mul_right ps hge
      have := Nat.mul_comm ps np
      have := Nat.mul_comm ps k
      omega
  have hjm : o + m * ps < l.length := by
    rw [he_eq.1]
    exact he_eq.2.1
  have hrun := stride_loop_spec p o ps hps
    (2 * (m - 0) + (if p (getd l (o + 0 * ps)) = true then 1 else 0))
    l 0 m le_rfl (Nat.zero_le m) hjm
    (fun k hk => absurd hk (Nat.not_lt_zero k))
    (fun k hk hkr => absurd (he_eq.2.2 k hkr) (by omega))
  simp only [strided_partition]
  simp only [← hpsdef, ← hmdef]
  set r := stride_loop p o ps l 0 m with hrdef
  refine ⟨hrun.1, hrun.2.1, ?_, ?_, ?_, ⟨r.2, rfl⟩⟩
  · intro q hq
    apply hrun.2.2.1
    intro k hk hqk
    rw [hqk, Nat.add_mul_mod_self_right, Nat.mod_eq_of_lt ho] at hq
    exact hq rfl
  · intro k hk
    constructor
    · intro hklt
      split at hklt
      · next hp2 =>
        rcases Nat.lt_or_ge k r.2 with hkf | hkf
        · exact hrun.2.2.2.2.2.1 k hkf
        · have hkeq : k = r.2 := by
            by_contra hne
            have : r.2 + 1 ≤ k := by omega
            have := Nat.mul_le_mul_right ps this
            have h3 : (r.2 + 1) * ps = r.2 * ps + ps := by ring
            omega
          rw [hkeq]
          exact hp2
      · next hp2 =>
        have hkf : k < r.2 := by
          by_contra hne
          have : r.2 ≤ k := by omega
          have := Nat.mul_le_mul_right ps this
          omega
        exact hrun.2.2.2.2.2.1 k hkf
    · intro hkge
      split at hkge
      · next hp2 =>
        have hkf : r.2 < k := by
          by_contra hne
          have : k ≤ r.2 := by omega
          have := Nat.mul_le_mul_right ps this
          omega
        exact hrun.2.2.2.2.2.2 k hkf hk
      · next hp2 =>
        rcases Nat.lt_or_ge r.2 k with hkf | hkf
        · exact hrun.2.2.2.2.2.2 k hkf hk
        · have hkeq : k = r.2 := by
            by_contra hne
            have : k + 1 ≤ r.2 := by omega
            have := Nat.mul_le_mul_right ps this
            have h3 : (k + 1) * ps = k * ps + ps := by ring
            omega
          rw [hkeq]
          rw [Bool.not_eq_true] at hp2
          exact hp2
  · split
    · next hp2 =>
      have := Nat.mul_le_mul_right ps hrun.2.2.2.2.1
      omega
    · next hp2 =>
      have := Nat.mul_le_mul_right ps hrun.2.2.2.2.1
      omega

theorem getD_append_lt {xs ys : List Nat} {i : Nat} (h : i < xs.length) :
    (xs ++ ys).getD i 0 = xs.getD i 0 := by
  rw [List.getD_eq_getElem?_getD, List.getD_eq_getElem?_getD,
    List.getElem?_append, if_pos h]

theorem getD_concat_length {xs : List Nat} {a : Nat} :
    (xs ++ [a]).getD xs.length 0 = a := by
  rw [List.getD_eq_getElem?_getD, List.getElem?_append_right le_rfl,
    Nat.sub_self]
  rfl

/-- Serial elision of the spawn loop of partition (src/cilk_partition.h lines
78-81): the strided partitions for offsets 0, 1, ..., P-1 run in order on the
shared array (they touch disjoint residue classes), and their cut indices are
collected in offset order. -/
def run_strides {α : Type} [Inhabited α] (p : α → Bool) (np : Nat) :
    Nat → List α → List α × List Nat
  | 0, g => (g, [])
  | o + 1, g =>
    let r0 := run_strides p np o g
    let r1 := strided_partition p r0.1 np o
    (r1.1, r0.2 ++ [r1.2])

theorem run_strides_spec {α : Type} [Inhabited α] (p : α → Bool) (np : Nat)
    (hnp : 0 < np) (l : List α) (hps : 0 < l.length / np)
    (hrem : l.length < (l.length / np) * (np + 1)) :
    ∀ P, P ≤ l.length / np →
    (run_strides p np P l).1.Perm l ∧
    (run_strides p np P l).1.length = l.length ∧
    (run_strides p np P l).2.length = P ∧
    (∀ q, P ≤ q % (l.length / np) → getd (run_strides p np P l).1 q = getd l q) ∧
    (∀ o2, o2 < P → ∀ k, o2 + k * (l.length / np) < l.length →
      (o2 + k * (l.length / np) < (run_strides p np P l).2.getD o2 0 →
        p (getd (run_strides p np P l).1 (o2 + k * (l.length / np))) = true) ∧
      ((run_strides p np P l).2.getD o2 0 ≤ o2 + k * (l.length / np) →
        p (getd (run_strides p np P l).1 (o2 + k * (l.length / np))) =
          false)) ∧
    (∀ o2, o2 < P → (run_strides p np P l).2.getD o2 0 ≤ l.length) := by
  intro P
  induction P with
  | zero =>
    intro hP
    rw [run_strides]
    exact ⟨List.Perm.refl l, rfl, rfl, fun q hq => rfl,
      fun o2 ho2 => absurd ho2 (Nat.not_lt_zero o2),
      fun o2 ho2 => absurd ho2 (Nat.not_lt_zero o2)⟩
  | succ P ih =>
    intro hP
    have ih2 := ih (by omega)
    rw [run_strides]
    simp only
    set r0 := run_strides p np P l with hr0
    have hlen0 : r0.1.length = l.length := ih2.2.1
    have hps0 : r0.1.length / np = l.length / np := by rw [hlen0]
    have hspec := strided_partition_spec p r0.1 np P hnp
      (by rw [hps0]; exact hps) (by rw [hps0]; omega)
      (by rw [hps0, hlen0]; exact hrem)
    rw [hlen0] at hspec
    set r1 := strided_partition p r0.1 np P with hr1
    set ps := l.length / np with hpsdef
    have hcutlen : r0.2.length = P := ih2.2.2.1
    refine ⟨hspec.1.trans ih2.1, hspec.2.1, ?_, ?_, ?_, ?_⟩
    · rw [List.length_append, hcutlen]
      rfl
    · intro q hq
      have h1 : getd r1.1 q = getd r0.1 q := by
        apply hspec.2.2.1
        omega
      rw [h1]
      exact ih2.2.2.2.1 q (by omega)
    · intro o2 ho2 k hk
      rcases Nat.lt_or_ge o2 P with ho2P | ho2P
      · have hres : (o2 + k * ps) % ps = o2 := by
          rw [Nat.add_mul_mod_self_right, Nat.mod_eq_of_lt (by omega)]
        have hunch : getd r1.1 (o2 + k * ps) = getd r0.1 (o2 + k * ps) := by
          apply hspec.2.2.1
          rw [hres]
          omega
        have hcut : (r0.2 ++ [r1.2]).getD o2 0 = r0.2.getD o2 0 :=
          getD_append_lt (by omega)
        rw [hcut, hunch]
        exact ih2.2.2.2.2.1 o2 ho2P k hk
      · have ho2eq : o2 = P := by omega
        subst ho2eq
        have hcut : (r0.2 ++ [r1.2]).getD o2 0 = r1.2 := by
          rw [← hcutlen]
          exact getD_concat_length
        rw [hcut]
        exact hspec.2.2.2.1 k hk
    · intro o2 ho2
      rcases Nat.lt_or_ge o2 P with ho2P | ho2P
      · rw [getD_append_lt (by omega)]
        exact ih2.2.2.2.2.2 o2 ho2P
      · have ho2eq : o2 = P := by omega
        subst ho2eq
        rw [show o2 = r0.2.length by omega, getD_concat_length]
        exact hspec.2.2.2.2.1

/-- Model of *std::min_element over a non-empty vector (src/cilk_partition.h
line 84): the minimum value of the list. -/
def list_min : List Nat → Nat
  | [] => 0
  | [x] => x
  | x :: y :: xs => min x (list_min (y :: xs))

/-- Model of *std::max_element over a non-empty vector (src/cilk_partition.h
line 85): the maximum value of the list. -/
def list_max : List Nat → Nat
  | [] => 0
  | [x] => x
  | x :: y :: xs => max x (list_max (y :: xs))

theorem list_min_le : ∀ (xs : List Nat) (x : Nat), x ∈ xs → list_min xs ≤ x := by
  intro xs
  induction xs with
  | nil =>
    intro x hx
    exact absurd hx (List.not_mem_nil x)
  | cons a t ih =>
    intro x hx
    cases t with
    | nil =>
      have h := List.mem_singleton.mp hx
      subst h
      simp only [list_min]
      exact Nat.le_refl _
    | cons b t2 =>
      simp only [list_min]
      rcases List.mem_cons.mp hx with h | h
      · subst h
        exact Nat.min_le_left _ _
      · exact Nat.le_trans (Nat.min_le_right _ _) (ih x h)

theorem list_max_ge : ∀ (xs : List Nat) (x : Nat), x ∈ xs → x ≤ list_max xs := by
  intro xs
  induction xs with
  | nil =>
    intro x hx
    exact absurd hx (List.not_mem_nil x)
  | cons a t ih =>
    intro x hx
    cases t with
    | nil =>
      have h := List.mem_singleton.mp hx
      subst h
      simp only [list_max]
      exact Nat.le_refl _
    | cons b t2 =>
      simp only [list_max]
      rcases List.mem_cons.mp hx with h | h
      · subst h
        exact Nat.le_max_left _ _
      · exact Nat.le_trans (ih x h) (Nat.le_max_right _ _)

theorem list_min_mem : ∀ xs : List Nat, xs ≠ [] → list_min xs ∈ xs := by
  intro xs
  induction xs with
  | nil =>
    intro h
    exact absurd rfl h
  | cons a t ih =>
    intro h
    cases t with
    | nil =>
      simp only [list_min]
      exact List.mem_singleton_self a
    | cons b t2 =>
      simp only [list_min]
      rcases Nat.le_total a (list_min (b :: t2)) with h1 | h1
      · rw [min_eq_left h1]
        exact List.mem_cons_self a (b :: t2)
      · rw [min_eq_right h1]
        exact List.mem_cons_of_mem a (ih (List.cons_ne_nil b t2))

theorem list_max_mem : ∀ xs : List Nat, xs ≠ [] → list_max xs ∈ xs := by
  intro xs
  induction xs with
  | nil =>
    intro h
    exact absurd rfl h
  | cons a t ih =>
    intro h
    cases t with
    | nil =>
      simp only [list_max]
      exact List.mem_singleton_self a
    | cons b t2 =>
      simp only [list_max]
      rcases Nat.le_total a (list_max (b :: t2)) with h1 | h1
      · rw [max_eq_right h1]
        exact List.mem_cons_of_mem a (ih (List.cons_ne_nil b t2))
      · rw [max_eq_left h1]
        exact List.mem_cons_self a (b :: t2)

theorem getD_eq_getElem_nat {xs : List Nat} {i : Nat} (h : i < xs.length) :
    xs.getD i 0 = xs[i] := by
  rw [List.getD_eq_getElem?_getD, List.getElem?_eq_getElem h]
  rfl

theorem list_min_le_getD {xs : List Nat} {o : Nat} (h : o < xs.length) :
    list_min xs ≤ xs.getD o 0 := by
  rw [getD_eq_getElem_nat h]
  exact list_min_le xs _ (List.getElem_mem h)

theorem getD_le_list_max {xs : List Nat} {o : Nat} (h : o < xs.length) :
    xs.getD o 0 ≤ list_max xs := by
  rw [getD_eq_getElem_nat h]
  exact list_max_ge xs _ (List.getElem_mem h)

theorem getd_append_left {α : Type} [Inhabited α] {A B : List α} {i : Nat}
    (h : i < A.length) : getd (A ++ B) i = getd A i := by
  simp only [getd, List.getD_eq_getElem?_getD]
  rw [List.getElem?_append, if_pos h]

theorem getd_append_right {α : Type} [Inhabited α] {A B : List α} {i : Nat}
    (h : A.length ≤ i) : getd (A ++ B) i = getd B (i - A.length) := by
  simp only [getd, List.getD_eq_getElem?_getD]
  rw [List.getElem?_append, if_neg (by omega)]

theorem getd_take {α : Type} [Inhabited α] {g : List α} {n i : Nat} (h : i < n) :
    getd (g.take n) i = getd g i := by
  simp only [getd, List.getD_eq_getElem?_getD]
  rw [List.getElem?_take_of_lt h]

theorem getd_drop {α : Type} [Inhabited α] (g : List α) (n i : Nat) :
    getd (g.drop n) i = getd g (n + i) := by
  simp only [getd, List.getD_eq_getElem?_getD]
  rw [List.getElem?_drop]

theorem filter_getd_true {α : Type} [Inhabited α] (p : α → Bool) (M : List α)
    {j : Nat} (h : j < (M.filter p).length) :
    p (getd (M.filter p) j) = true := by
  rw [getd_eq_getElem h]
  exact (List.mem_filter.mp (List.getElem_mem h)).2

theorem filter_getd_false {α : Type} [Inhabited α] (p : α → Bool) (M : List α)
    {j : Nat} (h : j < (M.filter (fun x => !p x)).length) :
    p (getd (M.filter (fun x => !p x)) j) = false := by
  rw [getd_eq_getElem h]
  have hm := (List.mem_filter.mp (List.getElem_mem h)).2
  rwa [Bool.not_eq_true'] at hm

/-- Contract of std::partition (called on lines 71 and 86 of
src/cilk_partition.h): the satisfying elements in order, then the
non-satisfying elements in order, with the returned iterator offset equal to
the number of satisfying elements. -/
def std_partition {α : Type} (p : α → Bool) (l : List α) : List α × Nat :=
  (l.filter p ++ l.filter (fun x => !p x), (l.filter p).length)

theorem std_partition_spec {α : Type} [Inhabited α] (p : α → Bool) (M : List α) :
    (std_partition p M).1.Perm M ∧
    (std_partition p M).1.length = M.length ∧
    (std_partition p M).2 ≤ M.length ∧
    (∀ j, j < (std_partition p M).2 → p (getd (std_partition p M).1 j) = true) ∧
    (∀ j, (std_partition p M).2 ≤ j → j < M.length →
      p (getd (std_partition p M).1 j) = false) := by
  have hperm : (std_partition p M).1.Perm M := List.filter_append_perm p M
  have hlen := hperm.length_eq
  refine ⟨hperm, hlen, List.length_filter_le p M, ?_, ?_⟩
  · intro j hj
    have hj2 : j < (M.filter p).length := hj
    rw [show (std_partition p M).1 = M.filter p ++ M.filter (fun x => !p x)
        from rfl, getd_append_left hj2]
    exact filter_getd_true p M hj2
  · intro j hj1 hj2
    have hj3 : (M.filter p).length ≤ j := hj1
    have htot : (M.filter p).length + (M.filter (fun x => !p x)).length =
        M.length := by
      have h5 := hlen
      rw [show (std_partition p M).1 = M.filter p ++ M.filter (fun x => !p x)
          from rfl, List.length_append] at h5
      exact h5
    rw [show (std_partition p M).1 = M.filter p ++ M.filter (fun x => !p x)
        from rfl, getd_append_right hj3]
    exact filter_getd_false p M (by omega)

theorem findIdx_eq_of_getd {α : Type} [Inhabited α] (q : α → Bool) :
    ∀ (g : List α) (m : Nat), m ≤ g.length →
    (∀ i, i < m → q (getd g i) = false) →
    (∀ i, m ≤ i → i < g.length → q (getd g i) = true) →
    g.findIdx q = m := by
  intro g
  induction g with
  | nil =>
    intro m hm h1 h2
    simp only [List.findIdx_nil]
    simp only [List.length_nil] at hm
    omega
  | cons x t ih =>
    intro m hm h1 h2
    cases m with
    | zero =>
      have hq : q x = true := by
        have h3 := h2 0 (Nat.zero_le 0) (by simp)
        rw [show getd (x :: t) 0 = x from rfl] at h3
        exact h3
      rw [List.findIdx_cons, hq]
      rfl
    | succ m2 =>
      have hq : q x = false := by
        have h3 := h1 0 (Nat.succ_pos m2)
        rw [show getd (x :: t) 0 = x from rfl] at h3
        exact h3
      rw [List.findIdx_cons, hq]
      show t.findIdx q + 1 = m2 + 1
      have hrec : t.findIdx q = m2 := by
        apply ih
        · simp only [List.length_cons] at hm
          omega
        · intro i hi
          have h3 := h1 (i + 1) (by omega)
          rw [show getd (x :: t) (i + 1) = getd t i from rfl] at h3
          exact h3
        · intro i hi1 hi2
          have h3 := h2 (i + 1) (by omega)
            (by simp only [List.length_cons]; omega)
          rw [show getd (x :: t) (i + 1) = getd t i from rfl] at h3
          exact h3
      omega

/-- When partition runs its parallel phase (n = last - first ≥ PARTITION_GS),
the stride width range_width / num_parts computed inside each
strided_partition call equals PART_SIZE, since num_parts = n / PART_SIZE. -/
theorem ps_eq_part_size {n : Nat} (hn : PARTITION_GS ≤ n) :
    n / (n / PART_SIZE) = PART_SIZE := by
  simp only [PARTITION_GS] at hn
  simp only [PART_SIZE]
  have hlo : 64 * (n / 64) ≤ n := by omega
  have hhi : n < (64 + 1) * (n / 64) := by omega
  exact Nat.div_eq_of_lt_le hlo hhi

/-- After the spawn loop of partition joins (serial elision: all PART_SIZE
stride tasks have run), with L the minimum and R the maximum of the collected
cut indices, every position below L holds a satisfying element and every
position at or beyond R holds a non-satisfying element. -/
theorem run_strides_min_max {α : Type} [Inhabited α] (p : α → Bool)
    (l : List α) (hn : PARTITION_GS ≤ l.length) :
    (run_strides p (l.length / PART_SIZE) PART_SIZE l).1.Perm l ∧
    (run_strides p (l.length / PART_SIZE) PART_SIZE l).1.length = l.length ∧
    (run_strides p (l.length / PART_SIZE) PART_SIZE l).2.length = PART_SIZE ∧
    list_min (run_strides p (l.length / PART_SIZE) PART_SIZE l).2 ≤
      list_max (run_strides p (l.length / PART_SIZE) PART_SIZE l).2 ∧
    list_max (run_strides p (l.length / PART_SIZE) PART_SIZE l).2 ≤ l.length ∧
    (∀ i, i < list_min (run_strides p (l.length / PART_SIZE) PART_SIZE l).2 →
      p (getd (run_strides p (l.length / PART_SIZE) PART_SIZE l).1 i) = true) ∧
    (∀ i, list_max (run_strides p (l.length / PART_SIZE) PART_SIZE l).2 ≤ i →
      i < l.length →
      p (getd (run_strides p (l.length / PART_SIZE) PART_SIZE l).1 i) =
        false) := by
  have hps : l.length / (l.length / PART_SIZE) = PART_SIZE := ps_eq_part_size hn
  have hn2 : 4096 ≤ l.length := by
    have h := hn
    simp only [PARTITION_GS] at h
    exact h
  have hnp : 0 < l.length / PART_SIZE := by
    simp only [PART_SIZE]
    omega
  have hps0 : 0 < l.length / (l.length / PART_SIZE) := by
    rw [hps]
    decide
  have hrem : l.length <
      (l.length / (l.length / PART_SIZE)) * ((l.length / PART_SIZE) + 1) := by
    rw [hps]
    simp only [PART_SIZE]
    omega
  have hspec := run_strides_spec p (l.length / PART_SIZE) hnp l hps0 hrem
    PART_SIZE (le_of_eq hps.symm)
  rw [hps] at hspec
  obtain ⟨hperm, hlen, hclen, hunt, hcuts, hbound⟩ := hspec
  have hne : (run_strides p (l.length / PART_SIZE) PART_SIZE l).2 ≠ [] := by
    intro h
    rw [h] at hclen
    exact absurd hclen (by decide)
  have hmaxmem := list_max_mem _ hne
  have hminmax := list_min_le _ _ hmaxmem
  have hmaxle :
      list_max (run_strides p (l.length / PART_SIZE) PART_SIZE l).2 ≤
        l.length := by
    obtain ⟨i, hi, hieq⟩ := List.getElem_of_mem hmaxmem
    have hi2 : i < PART_SIZE := by
      rw [hclen] at hi
      exact hi
    have hb := hbound i hi2
    rw [getD_eq_getElem_nat hi, hieq] at hb
    exact hb
  refine ⟨hperm, hlen, hclen, hminmax, hmaxle, ?_, ?_⟩
  · intro i hi
    have hiL : i < l.length := by omega
    have ho : i % PART_SIZE < PART_SIZE := Nat.mod_lt i (by decide)
    have hdecomp : i % PART_SIZE + (i / PART_SIZE) * PART_SIZE = i := by
      simp only [PART_SIZE]
      omega
    have hcut := hcuts (i % PART_SIZE) ho (i / PART_SIZE)
      (by rw [hdecomp]; exact hiL)
    rw [hdecomp] at hcut
    apply hcut.1
    have hgd := list_min_le_getD (show i % PART_SIZE <
      (run_strides p (l.length / PART_SIZE) PART_SIZE l).2.length
      by rw [hclen]; exact ho)
    omega
  · intro i hi1 hi2
    have ho : i % PART_SIZE < PART_SIZE := Nat.mod_lt i (by decide)
    have hdecomp : i % PART_SIZE + (i / PART_SIZE) * PART_SIZE = i := by
      simp only [PART_SIZE]
      omega
    have hcut := hcuts (i % PART_SIZE) ho (i / PART_SIZE)
      (by rw [hdecomp]; exact hi2)
    rw [hdecomp] at hcut
    apply hcut.2
    have hgd := getD_le_list_max (show i % PART_SIZE <
      (run_strides p (l.length / PART_SIZE) PART_SIZE l).2.length
      by rw [hclen]; exact ho)
    omega

/-- Each collected cut index has the form returned on lines 51-56 of
src/cilk_partition.h: s - first + 1 if p(*s) holds at the final start
pointer s of that stride, and s - first otherwise, with s in the stride's
residue class; the predicate value of the element at s is unchanged by the
later strides, which touch the other residue classes only. -/
theorem run_strides_cut_form {α : Type} [Inhabited α] (p : α → Bool)
    (np : Nat) (hnp : 0 < np) (l : List α) (hps : 0 < l.length / np)
    (hrem : l.length < (l.length / np) * (np + 1)) :
    ∀ P, P ≤ l.length / np → ∀ o2, o2 < P →
    ∃ fi, (run_strides p np P l).2.getD o2 0 =
      if p (getd (run_strides p np P l).1 (o2 + fi * (l.length / np))) = true
      then o2 + fi * (l.length / np) + 1 else o2 + fi * (l.length / np) := by
  intro P
  induction P with
  | zero =>
    intro hP o2 ho2
    exact absurd ho2 (Nat.not_lt_zero o2)
  | succ P ih =>
    intro hP o2 ho2
    have hrun := run_strides_spec p np hnp l hps hrem P (by omega)
    rw [run_strides]
    simp only
    set r0 := run_strides p np P l with hr0
    have hlen0 : r0.1.length = l.length := hrun.2.1
    have hspec := strided_partition_spec p r0.1 np P hnp
      (by rw [hlen0]; exact hps) (by rw [hlen0]; omega)
      (by rw [hlen0]; exact hrem)
    rw [hlen0] at hspec
    set r1 := strided_partition p r0.1 np P with hr1
    set ps := l.length / np with hpsdef
    have hcutlen : r0.2.length = P := hrun.2.2.1
    rcases Nat.lt_or_ge o2 P with ho2P | ho2P
    · obtain ⟨fi, hfi⟩ := ih (by omega) o2 ho2P
      refine ⟨fi, ?_⟩
      have hres : (o2 + fi * ps) % ps = o2 := by
        rw [Nat.add_mul_mod_self_right, Nat.mod_eq_of_lt (by omega)]
      have hunch : getd r1.1 (o2 + fi * ps) = getd r0.1 (o2 + fi * ps) := by
        apply hspec.2.2.1
        rw [hres]
        omega
      rw [getD_append_lt (by omega), hunch]
      exact hfi
    · have ho2eq : o2 = P := by omega
      subst ho2eq
      have hcut : (r0.2 ++ [r1.2]).getD o2 0 = r1.2 := by
        rw [show o2 = r0.2.length from by omega]
        exact getD_concat_length
      rw [hcut]
      exact hspec.2.2.2.2.2

/-- Model of partition (src/cilk_partition.h lines 67-87): below the
grainsize it is one serial std::partition; otherwise the PART_SIZE strided
partitions run (serial elision of the spawn loop), the minimum and maximum
cut indices bound the uncertain middle region, and that middle is finished
with a serial std::partition, whose iterator is returned. -/
def partition {α : Type} [Inhabited α] (p : α → Bool) (l : List α) :
    List α × Nat :=
  if l.length < PARTITION_GS then std_partition p l
  else
    let r := run_strides p (l.length / PART_SIZE) PART_SIZE l
    let left := list_min r.2
    let right := list_max r.2
    let m := std_partition p ((r.1.drop left).take (right - left))
    (r.1.take left ++ m.1 ++ r.1.drop right, left + m.2)

theorem partition_eq_of_ge {α : Type} [Inhabited α] (p : α → Bool) (l : List α)
    (h : ¬ l.length < PARTITION_GS) :
    partition p l =
      ((run_strides p (l.length / PART_SIZE) PART_SIZE l).1.take
          (list_min (run_strides p (l.length / PART_SIZE) PART_SIZE l).2) ++
        (std_partition p
          (((run_strides p (l.length / PART_SIZE) PART_SIZE l).1.drop
              (list_min (run_strides p (l.length / PART_SIZE) PART_SIZE l).2)).take
            (list_max (run_strides p (l.length / PART_SIZE) PART_SIZE l).2 -
              list_min
                (run_strides p (l.length / PART_SIZE) PART_SIZE l).2))).1 ++
        (run_strides p (l.length / PART_SIZE) PART_SIZE l).1.drop
          (list_max (run_strides p (l.length / PART_SIZE) PART_SIZE l).2),
       list_min (run_strides p (l.length / PART_SIZE) PART_SIZE l).2 +
         (std_partition p
           (((run_strides p (l.length / PART_SIZE) PART_SIZE l).1.drop
               (list_min (run_strides p (l.length / PART_SIZE) PART_SIZE l).2)).take
             (list_max (run_strides p (l.length / PART_SIZE) PART_SIZE l).2 -
               list_min
                 (run_strides p (l.length / PART_SIZE) PART_SIZE l).2))).2) := by
  rw [partition, if_neg h]

/-- The middle std::partition pass: if everything below L satisfies p and
everything at or beyond R does not, std-partitioning the slice [L, R) of g
gives an array that is a permutation of g and is exactly partitioned at
L + (number of satisfying elements of the slice). -/
theorem partition_concat_spec {α : Type} [Inhabited α] (p : α → Bool)
    (g : List α) (L R : Nat) (hLR : L ≤ R) (hR : R ≤ g.length)
    (hbelow : ∀ i, i < L → p (getd g i) = true)
    (habove : ∀ i, R ≤ i → i < g.length → p (getd g i) = false) :
    (g.take L ++ (std_partition p ((g.drop L).take (R - L))).1 ++
      g.drop R).Perm g ∧
    L + (std_partition p ((g.drop L).take (R - L))).2 ≤ g.length ∧
    (∀ i, i < L + (std_partition p ((g.drop L).take (R - L))).2 →
      p (getd (g.take L ++ (std_partition p ((g.drop L).take (R - L))).1 ++
        g.drop R) i) = true) ∧
    (∀ i, L + (std_partition p ((g.drop L).take (R - L))).2 ≤ i →
      i < g.length →
      p (getd (g.take L ++ (std_partition p ((g.drop L).take (R - L))).1 ++
        g.drop R) i) = false) := by
  set M := (g.drop L).take (R - L) with hM
  have hstd := std_partition_spec p M
  set A := (std_partition p M).1 with hA
  set t := (std_partition p M).2 with ht
  have hMlen : M.length = R - L := by
    rw [hM, List.length_take, List.length_drop]
    omega
  have hAlen : A.length = R - L := hstd.2.1.trans hMlen
  have htle : t ≤ R - L := by
    rw [← hMlen]
    exact hstd.2.2.1
  have htklen : (g.take L).length = L := by
    rw [List.length_take]
    omega
  have hdec : g.take L ++ (M ++ g.drop R) = g := by
    have h2 : (g.drop L).drop (R - L) = g.drop R := by
      rw [List.drop_drop, Nat.add_sub_cancel' hLR]
    calc g.take L ++ (M ++ g.drop R)
        = g.take L ++ (M ++ (g.drop L).drop (R - L)) := by rw [h2]
      _ = g.take L ++ g.drop L := by rw [hM, List.take_append_drop]
      _ = g := List.take_append_drop L g
  have hperm : (g.take L ++ A ++ g.drop R).Perm g := by
    have h3 : ((g.take L ++ A) ++ g.drop R).Perm
        ((g.take L ++ M) ++ g.drop R) :=
      List.Perm.append_right _ (List.Perm.append_left _ hstd.1)
    have h4 : (g.take L ++ M) ++ g.drop R = g := by
      rw [List.append_assoc]
      exact hdec
    rw [h4] at h3
    exact h3
  have hlow : ∀ i, i < L →
      getd (g.take L ++ A ++ g.drop R) i = getd g i := by
    intro i hi
    rw [getd_append_left (show i < (g.take L ++ A).length by
        rw [List.length_append, htklen, hAlen]; omega),
      getd_append_left (show i < (g.take L).length by rw [htklen]; omega),
      getd_take (show i < L by omega)]
  have hmid : ∀ i, L ≤ i → i < R →
      getd (g.take L ++ A ++ g.drop R) i = getd A (i - L) := by
    intro i hi1 hi2
    rw [getd_append_left (show i < (g.take L ++ A).length by
        rw [List.length_append, htklen, hAlen]; omega),
      getd_append_right (show (g.take L).length ≤ i by rw [htklen]; omega),
      htklen]
  have hhigh : ∀ i, R ≤ i →
      getd (g.take L ++ A ++ g.drop R) i = getd g i := by
    intro i hi
    rw [getd_append_right (show (g.take L ++ A).length ≤ i by
        rw [List.length_append, htklen, hAlen]; omega)]
    rw [List.length_append, htklen, hAlen, getd_drop]
    congr 1
    omega
  refine ⟨hperm, by omega, ?_, ?_⟩
  · intro i hi
    rcases Nat.lt_or_ge i L with h | h
    · rw [hlow i h]
      exact hbelow i h
    · rw [hmid i h (by omega)]
      exact hstd.2.2.2.1 (i - L) (by omega)
  · intro i hi1 hi2
    rcases Nat.lt_or_ge i R with h | h
    · rw [hmid i (by omega) h]
      exact hstd.2.2.2.2 (i - L) (by omega) (by rw [hMlen]; omega)
    · rw [hhigh i h]
      exact habove i h hi2

/-- C3: for every range and pure predicate p, with mid = partition(first,
last, p), every element strictly before mid satisfies p, every element at or
after mid does not, the final contents are a permutation of the input, and
the returned iterator is the first non-satisfying position. -/
theorem claim_C3_partition_correct {α : Type} [Inhabited α] (p : α → Bool)
    (l : List α) :
    (partition p l).1.Perm l ∧
    (∀ i, i < (partition p l).2 → p (getd (partition p l).1 i) = true) ∧
    (∀ i, (partition p l).2 ≤ i → i < l.length →
      p (getd (partition p l).1 i) = false) ∧
    (partition p l).2 = (partition p l).1.findIdx (fun x => !p x) := by
  by_cases hlen : l.length < PARTITION_GS
  · have hP : partition p l = std_partition p l := by
      rw [partition, if_pos hlen]
    rw [hP]
    have hstd := std_partition_spec p l
    refine ⟨hstd.1, hstd.2.2.2.1, hstd.2.2.2.2, ?_⟩
    apply Eq.symm
    apply findIdx_eq_of_getd
    · rw [hstd.2.1]
      exact hstd.2.2.1
    · intro i hi
      have hx := hstd.2.2.2.1 i hi
      simp only [hx, Bool.not_true]
    · intro i hi1 hi2
      rw [hstd.2.1] at hi2
      have hx := hstd.2.2.2.2 i hi1 hi2
      simp only [hx, Bool.not_false]
  · have hge : PARTITION_GS ≤ l.length := Nat.le_of_not_lt hlen
    have h12 := partition_eq_of_ge p l hlen
    obtain ⟨hperm, hglen, hclen, hLR, hRle, hbelow, habove⟩ :=
      run_strides_min_max p l hge
    have hps := partition_concat_spec p
      (run_strides p (l.length / PART_SIZE) PART_SIZE l).1
      (list_min (run_strides p (l.length / PART_SIZE) PART_SIZE l).2)
      (list_max (run_strides p (l.length / PART_SIZE) PART_SIZE l).2)
      hLR (by omega) hbelow
      (by intro i hi1 hi2; exact habove i hi1 (by omega))
    rw [h12]
    dsimp only
    refine ⟨hps.1.trans hperm, fun i hi => hps.2.2.1 i hi,
      fun i hi1 hi2 => hps.2.2.2 i hi1 (by omega), ?_⟩
    apply Eq.symm
    apply findIdx_eq_of_getd
    · rw [hps.1.length_eq]
      exact hps.2.1
    · intro i hi
      have hx := hps.2.2.1 i hi
      simp only [hx, Bool.not_true]
    · intro i hi1 hi2
      rw [hps.1.length_eq] at hi2
      have hx := hps.2.2.2 i hi1 hi2
      simp only [hx, Bool.not_false]

/-- C6: in the parallel phase (length at least PARTITION_GS), each stride
task returns the cut s - first + 1 if p(*s) holds and s - first otherwise
for a final pointer s in its residue class, and after all stride tasks join,
with L = min(cuts) and R = max(cuts), every element before first + L
satisfies p and no element at or after first + R does. -/
theorem claim_C6_partition_strides {α : Type} [Inhabited α] (p : α → Bool)
    (l : List α) (hn : PARTITION_GS ≤ l.length) :
    (∀ o, o < PART_SIZE →
      ∃ s, s % PART_SIZE = o ∧
        (run_strides p (l.length / PART_SIZE) PART_SIZE l).2.getD o 0 =
          if p (getd (run_strides p (l.length / PART_SIZE) PART_SIZE l).1 s)
            = true then s + 1 else s) ∧
    (∀ i, i < list_min (run_strides p (l.length / PART_SIZE) PART_SIZE l).2 →
      p (getd (run_strides p (l.length / PART_SIZE) PART_SIZE l).1 i) =
        true) ∧
    (∀ i, list_max (run_strides p (l.length / PART_SIZE) PART_SIZE l).2 ≤ i →
      i < l.length →
      p (getd (run_strides p (l.length / PART_SIZE) PART_SIZE l).1 i) =
        false) := by
  have hmm := run_strides_min_max p l hn
  refine ⟨?_, hmm.2.2.2.2.2.1, hmm.2.2.2.2.2.2⟩
  intro o ho
  have hps : l.length / (l.length / PART_SIZE) = PART_SIZE := ps_eq_part_size hn
  have hn2 : 4096 ≤ l.length := by
    have h := hn
    simp only [PARTITION_GS] at h
    exact h
  have hnp : 0 < l.length / PART_SIZE := by
    simp only [PART_SIZE]
    omega
  have hps0 : 0 < l.length / (l.length / PART_SIZE) := by
    rw [hps]
    decide
  have hrem : l.length <
      (l.length / (l.length / PART_SIZE)) * ((l.length / PART_SIZE) + 1) := by
    rw [hps]
    simp only [PART_SIZE]
    omega
  obtain ⟨fi, hfi⟩ := run_strides_cut_form p (l.length / PART_SIZE) hnp l hps0
    hrem PART_SIZE (le_of_eq hps.symm) o ho
  rw [hps] at hfi
  refine ⟨o + fi * PART_SIZE, ?_, hfi⟩
  have hox : o < PART_SIZE := ho
  simp only [PART_SIZE] at hox ⊢
  rw [Nat.add_mul_mod_self_right, Nat.mod_eq_of_lt hox]

theorem claim_C6_witness :
    PARTITION_GS ≤ (List.replicate 4096 (0 : Nat)).length ∧
    ((∀ o, o < PART_SIZE →
      ∃ s, s % PART_SIZE = o ∧
        (run_strides (fun _ : Nat => true)
          ((List.replicate 4096 (0 : Nat)).length / PART_SIZE) PART_SIZE
          (List.replicate 4096 (0 : Nat))).2.getD o 0 =
          if (fun _ : Nat => true)
              (getd (run_strides (fun _ : Nat => true)
                ((List.replicate 4096 (0 : Nat)).length / PART_SIZE) PART_SIZE
                (List.replicate 4096 (0 : Nat))).1 s) = true
          then s + 1 else s) ∧
    (∀ i, i < list_min (run_strides (fun _ : Nat => true)
        ((List.replicate 4096 (0 : Nat)).length / PART_SIZE) PART_SIZE
        (List.replicate 4096 (0 : Nat))).2 →
      (fun _ : Nat => true)
        (getd (run_strides (fun _ : Nat => true)
          ((List.replicate 4096 (0 : Nat)).length / PART_SIZE) PART_SIZE
          (List.replicate 4096 (0 : Nat))).1 i) = true) ∧
    (∀ i, list_max (run_strides (fun _ : Nat => true)
        ((List.replicate 4096 (0 : Nat)).length / PART_SIZE) PART_SIZE
        (List.replicate 4096 (0 : Nat))).2 ≤ i →
      i < (List.replicate 4096 (0 : Nat)).length →
      (fun _ : Nat => true)
        (getd (run_strides (fun _ : Nat => true)
          ((List.replicate 4096 (0 : Nat)).length / PART_SIZE) PART_SIZE
          (List.replicate 4096 (0 : Nat))).1 i) = false)) :=
  ⟨by rw [List.length_replicate]; decide,
   claim_C6_partition_strides (fun _ : Nat => true)
     (List.replicate 4096 (0 : Nat))
     (by rw [List.length_replicate]; decide)⟩

/-- C9 counterexample input: for a range of length 4100 (the parallel phase,
so num_parts = 64), stride offset 0, the code initialises e to offset
4096 = 0 + 64 * PART_SIZE, which uses k = 64 = num_parts; no k < num_parts
yields offset 4096, so e is not of the claimed form k * PART_SIZE + o with
k < num_parts. -/
theorem claim_C9_counterexample :
    PARTITION_GS ≤ 4100 ∧ 0 < PART_SIZE ∧
    strided_e_init 4100 (4100 / PART_SIZE) 0 = 4096 ∧
    (∀ k, k < 4100 / PART_SIZE → 0 + k * PART_SIZE ≠ 4096) := by
  decide

/-- C9 (corrected): as invoked from partition (num_parts = n / PART_SIZE
with n ≥ PARTITION_GS and offset o < PART_SIZE), the stride width
part_size equals PART_SIZE, and e is initialised to the largest in-range
position of the form first + o + k * PART_SIZE with k ≤ num_parts — the
bound is k ≤ num_parts, not k < num_parts as claimed: when
part_size * num_parts + o still lands inside the range, the code picks
k = num_parts. -/
theorem claim_C9_e_init (n np o : Nat) (hn : PARTITION_GS ≤ n)
    (hnp : np = n / PART_SIZE) (ho : o < PART_SIZE) :
    n / np = PART_SIZE ∧
    (∃ k, k ≤ np ∧ strided_e_init n np o = o + k * PART_SIZE ∧
      strided_e_init n np o < n ∧
      (∀ k2, k2 ≤ np → o + k2 * PART_SIZE < n →
        o + k2 * PART_SIZE ≤ strided_e_init n np o)) := by
  subst hnp
  have hps : n / (n / PART_SIZE) = PART_SIZE := ps_eq_part_size hn
  simp only [PARTITION_GS] at hn
  simp only [PART_SIZE] at *
  refine ⟨hps, ?_⟩
  rw [strided_e_init, hps]
  by_cases hc : 64 * (n / 64) + o < n
  · rw [if_pos hc]
    refine ⟨n / 64, Nat.le_refl _, by omega, by omega, ?_⟩
    intro k2 hk2 hk2n
    have hmul : k2 * 64 ≤ (n / 64) * 64 := Nat.mul_le_mul_right 64 hk2
    omega
  · rw [if_neg hc]
    have hnp64 : 64 ≤ n / 64 := by omega
    refine ⟨n / 64 - 1, by omega, by omega, by omega, ?_⟩
    intro k2 hk2 hk2n
    rcases Nat.lt_or_ge k2 (n / 64) with h | h
    · have hmul : k2 * 64 ≤ (n / 64 - 1) * 64 :=
        Nat.mul_le_mul_right 64 (by omega)
      omega
    · have hk2e : k2 = n / 64 := by omega
      subst hk2e
      omega

theorem claim_C9_witness :
    (PARTITION_GS ≤ 4100 ∧ 4100 / PART_SIZE = 4100 / PART_SIZE ∧
      0 < PART_SIZE) ∧
    (4100 / (4100 / PART_SIZE) = PART_SIZE ∧
      (∃ k, k ≤ 4100 / PART_SIZE ∧
        strided_e_init 4100 (4100 / PART_SIZE) 0 = 0 + k * PART_SIZE ∧
        strided_e_init 4100 (4100 / PART_SIZE) 0 < 4100 ∧
        (∀ k2, k2 ≤ 4100 / PART_SIZE → 0 + k2 * PART_SIZE < 4100 →
          0 + k2 * PART_SIZE ≤ strided_e_init 4100 (4100 / PART_SIZE) 0))) :=
  ⟨⟨by decide, rfl, by decide⟩,
   claim_C9_e_init 4100 (4100 / PART_SIZE) 0 (by decide) rfl (by decide)⟩

end cilkstl
